import Mathlib

/-!
A verification development for the LEMON LALR(1) parser generator
(`tools/lemon/lemon.c`).  The C data structures and algorithms are shallowly
embedded as executable Lean definitions translated from the source, and the
specified properties are settled as theorems about those definitions.
-/

namespace Lemon

/-- Action kinds, from `enum e_action` in `struct action` (lemon.c). -/
inductive EAction
  | SHIFT
  | ACCEPT
  | REDUCE
  | ERROR
  | CONFLICT
  | SH_RESOLVED
  | RD_RESOLVED
  | NOT_USED
deriving DecidableEq, Repr

/-- The numeric value of an `e_action` enumerator (declaration order in C). -/
def EAction.num : EAction → Int
  | .SHIFT => 0
  | .ACCEPT => 1
  | .REDUCE => 2
  | .ERROR => 3
  | .CONFLICT => 4
  | .SH_RESOLVED => 5
  | .RD_RESOLVED => 6
  | .NOT_USED => 7

/-- Associativity, from `enum e_assoc` in `struct symbol` (lemon.c). -/
inductive EAssoc
  | LEFT
  | RIGHT
  | NONE
  | UNK
deriving DecidableEq, Repr

/-- The fields of `struct symbol` that the action builder and the conflict
resolver consult: the index assigned after sorting, the precedence
(`-1` when undefined) and the associativity. -/
structure Sym where
  index : Nat
  prec : Int
  assoc : EAssoc
deriving DecidableEq, Repr

/-- The fields of `struct rule` that actions carry: the sequential rule index
and the optional precedence symbol (`precsym`, NULL modelled as `none`). -/
structure ARule where
  index : Nat
  precsym : Option Sym
deriving DecidableEq, Repr

/-- The payload union `x` of `struct action`: a target state for a shift,
a rule for a reduce. -/
inductive APayload
  | st (idx : Nat)
  | ru (r : ARule)
deriving DecidableEq, Repr

/-- `struct action`: look-ahead symbol, kind, payload. -/
structure Action where
  sp : Sym
  type : EAction
  x : APayload
deriving DecidableEq, Repr

/-- Reading `a->x.rp`; only meaningful when the payload is a rule
(the C code only reads it on reduce-family actions). -/
def Action.xrp (a : Action) : ARule :=
  match a.x with
  | .ru r => r
  | .st _ => ⟨0, none⟩

/-- Placeholder used with `Option.getD` to read through an optional symbol
pointer; the C `||` short-circuit guarantees it is never consulted. -/
def nosym : Sym := ⟨0, -1, EAssoc.UNK⟩

/-- `resolve_conflict` (lemon.c).  Given two actions `apx`, `apy` with the
same look-ahead, mutate their `type` fields and return the number of
unresolved conflicts counted (the caller adds it to `lemp->nconflict`).
The result is the pair of updated actions together with `errcnt`.
The final catch-all of each branch corresponds to the C `else` (the
shift/reduce one carries `assert( spx->prec==spy->prec && spx->assoc==NONE )`). -/
def resolve_conflict (apx apy : Action) : Action × Action × Nat :=
  if apx.type = EAction.SHIFT ∧ apy.type = EAction.REDUCE then
    let spx := apx.sp
    match apy.xrp.precsym with
    | none => (apx, { apy with type := EAction.CONFLICT }, 1)
    | some spy =>
      if spx.prec < 0 ∨ spy.prec < 0 then
        (apx, { apy with type := EAction.CONFLICT }, 1)
      else if spx.prec > spy.prec then
        (apx, { apy with type := EAction.RD_RESOLVED }, 0)
      else if spx.prec < spy.prec then
        ({ apx with type := EAction.SH_RESOLVED }, apy, 0)
      else if spx.prec = spy.prec ∧ spx.assoc = EAssoc.RIGHT then
        (apx, { apy with type := EAction.RD_RESOLVED }, 0)
      else if spx.prec = spy.prec ∧ spx.assoc = EAssoc.LEFT then
        ({ apx with type := EAction.SH_RESOLVED }, apy, 0)
      else
        (apx, { apy with type := EAction.CONFLICT }, 1)
  else if apx.type = EAction.REDUCE ∧ apy.type = EAction.REDUCE then
    let spxo := apx.xrp.precsym
    let spyo := apy.xrp.precsym
    if spxo = none ∨ spyo = none ∨ (spxo.getD nosym).prec < 0 ∨
        (spyo.getD nosym).prec < 0 ∨ (spxo.getD nosym).prec = (spyo.getD nosym).prec then
      (apx, { apy with type := EAction.CONFLICT }, 1)
    else if (spxo.getD nosym).prec > (spyo.getD nosym).prec then
      (apx, { apy with type := EAction.RD_RESOLVED }, 0)
    else if (spxo.getD nosym).prec < (spyo.getD nosym).prec then
      ({ apx with type := EAction.RD_RESOLVED }, apy, 0)
    else
      (apx, apy, 0)
  else
    (apx, apy, 0)

/-- C1: shift/reduce conflict resolution.  For a shift action `apx` and a
reduce action `apy` on the same look-ahead terminal, `resolve_conflict`
behaves as specified: missing or undefined precedence information marks the
reduce as `CONFLICT` and counts one conflict; a strictly greater shift
precedence marks the reduce `RD_RESOLVED`; a strictly smaller one marks the
shift `SH_RESOLVED`; on equal precedence, associativity `RIGHT` marks the
reduce `RD_RESOLVED` (the shift survives), `LEFT` marks the shift
`SH_RESOLVED` (the reduce survives), and `NONE` marks the reduce `CONFLICT`
and counts one conflict. -/
theorem shift_reduce_resolution (apx apy : Action)
    (hx : apx.type = EAction.SHIFT) (hy : apy.type = EAction.REDUCE)
    (_hsp : apx.sp = apy.sp) :
    (apy.xrp.precsym = none →
        resolve_conflict apx apy = (apx, { apy with type := EAction.CONFLICT }, 1)) ∧
    (∀ spy, apy.xrp.precsym = some spy →
      ((apx.sp.prec < 0 ∨ spy.prec < 0 →
          resolve_conflict apx apy = (apx, { apy with type := EAction.CONFLICT }, 1)) ∧
       (0 ≤ apx.sp.prec → 0 ≤ spy.prec →
        ((spy.prec < apx.sp.prec →
            resolve_conflict apx apy = (apx, { apy with type := EAction.RD_RESOLVED }, 0)) ∧
         (apx.sp.prec < spy.prec →
            resolve_conflict apx apy = ({ apx with type := EAction.SH_RESOLVED }, apy, 0)) ∧
         (apx.sp.prec = spy.prec →
          ((apx.sp.assoc = EAssoc.RIGHT →
              resolve_conflict apx apy = (apx, { apy with type := EAction.RD_RESOLVED }, 0)) ∧
           (apx.sp.assoc = EAssoc.LEFT →
              resolve_conflict apx apy = ({ apx with type := EAction.SH_RESOLVED }, apy, 0)) ∧
           (apx.sp.assoc = EAssoc.NONE →
              resolve_conflict apx apy = (apx, { apy with type := EAction.CONFLICT }, 1)))))))) := by
  constructor
  · intro hnone
    simp only [resolve_conflict, hx, hy, and_self, if_true, hnone]
  · intro spy hsome
    refine ⟨?_, ?_⟩
    · intro hundef
      simp only [resolve_conflict, hx, hy, and_self, if_true, hsome]
      rw [if_pos hundef]
    · intro hxn hyn
      refine ⟨?_, ?_, ?_⟩
      · intro hgt
        simp only [resolve_conflict, hx, hy, and_self, if_true, hsome]
        rw [if_neg (by omega), if_pos (by omega)]
      · intro hlt
        simp only [resolve_conflict, hx, hy, and_self, if_true, hsome]
        rw [if_neg (by omega), if_neg (by omega), if_pos (by omega)]
      · intro heq
        refine ⟨?_, ?_, ?_⟩
        · intro hr
          simp only [resolve_conflict, hx, hy, and_self, if_true, hsome]
          rw [if_neg (by omega), if_neg (by omega), if_neg (by omega),
            if_pos ⟨heq, hr⟩]
        · intro hl
          simp only [resolve_conflict, hx, hy, and_self, if_true, hsome]
          rw [if_neg (by omega), if_neg (by omega), if_neg (by omega),
            if_neg (by simp [hl]), if_pos ⟨heq, hl⟩]
        · intro hn
          simp only [resolve_conflict, hx, hy, and_self, if_true, hsome]
          rw [if_neg (by omega), if_neg (by omega), if_neg (by omega),
            if_neg (by simp [hn]), if_neg (by simp [hn])]

/-- A concrete shift action used to witness C1. -/
def c1shift : Action := ⟨⟨3, 2, EAssoc.LEFT⟩, EAction.SHIFT, APayload.st 7⟩

/-- A concrete reduce action used to witness C1. -/
def c1reduce : Action :=
  ⟨⟨3, 2, EAssoc.LEFT⟩, EAction.REDUCE, APayload.ru ⟨1, some ⟨3, 2, EAssoc.LEFT⟩⟩⟩

/-- Witness for C1: the hypotheses hold of `c1shift`/`c1reduce` and the
equal-precedence `LEFT` case resolves in favour of the reduce. -/
theorem shift_reduce_resolution_witness :
    c1shift.type = EAction.SHIFT ∧ c1reduce.type = EAction.REDUCE ∧
    c1shift.sp = c1reduce.sp ∧
    resolve_conflict c1shift c1reduce =
      ({ c1shift with type := EAction.SH_RESOLVED }, c1reduce, 0) := by
  refine ⟨rfl, rfl, rfl, ?_⟩
  exact ((((shift_reduce_resolution c1shift c1reduce rfl rfl rfl).2
      ⟨3, 2, EAssoc.LEFT⟩ rfl).2 (by decide) (by decide)).2.2 rfl).2.1 rfl

/-- C2: reduce/reduce conflict resolution.  For two reduce actions on the
same look-ahead (`apx` earlier in the sorted list), a missing precedence
symbol, an undefined precedence, or equal precedences mark the later action
`apy` as `CONFLICT` and count one conflict; otherwise the action whose rule
has the lower precedence becomes `RD_RESOLVED`, the other survives, and no
conflict is counted. -/
theorem reduce_reduce_resolution (apx apy : Action)
    (hx : apx.type = EAction.REDUCE) (hy : apy.type = EAction.REDUCE)
    (_hsp : apx.sp = apy.sp) :
    ((apx.xrp.precsym = none ∨ apy.xrp.precsym = none) →
        resolve_conflict apx apy = (apx, { apy with type := EAction.CONFLICT }, 1)) ∧
    (∀ spx spy, apx.xrp.precsym = some spx → apy.xrp.precsym = some spy →
      ((spx.prec < 0 ∨ spy.prec < 0 ∨ spx.prec = spy.prec →
          resolve_conflict apx apy = (apx, { apy with type := EAction.CONFLICT }, 1)) ∧
       (0 ≤ spx.prec → 0 ≤ spy.prec →
        ((spy.prec < spx.prec →
            resolve_conflict apx apy = (apx, { apy with type := EAction.RD_RESOLVED }, 0)) ∧
         (spx.prec < spy.prec →
            resolve_conflict apx apy = ({ apx with type := EAction.RD_RESOLVED }, apy, 0)))))) := by
  have hns : ¬ (apx.type = EAction.SHIFT ∧ apy.type = EAction.REDUCE) := by
    simp [hx]
  constructor
  · intro hnone
    unfold resolve_conflict
    rw [if_neg hns, if_pos ⟨hx, hy⟩]
    simp only []
    rw [if_pos (by rcases hnone with h | h <;> simp [h])]
  · intro spx spy hsx hsy
    refine ⟨?_, ?_⟩
    · intro hcond
      unfold resolve_conflict
      rw [if_neg hns, if_pos ⟨hx, hy⟩]
      simp only [hsx, hsy, Option.getD_some]
      rw [if_pos (by
        refine Or.inr (Or.inr ?_)
        rcases hcond with h | h | h
        · exact Or.inl h
        · exact Or.inr (Or.inl h)
        · exact Or.inr (Or.inr h))]
    · intro hxn hyn
      refine ⟨?_, ?_⟩
      · intro hgt
        unfold resolve_conflict
        rw [if_neg hns, if_pos ⟨hx, hy⟩]
        simp only [hsx, hsy, Option.getD_some]
        rw [if_neg (by simp; omega), if_pos (by omega)]
      · intro hlt
        unfold resolve_conflict
        rw [if_neg hns, if_pos ⟨hx, hy⟩]
        simp only [hsx, hsy, Option.getD_some]
        rw [if_neg (by simp; omega), if_neg (by omega), if_pos (by omega)]

/-- A concrete earlier reduce action used to witness C2. -/
def c2first : Action :=
  ⟨⟨2, -1, EAssoc.UNK⟩, EAction.REDUCE, APayload.ru ⟨0, some ⟨5, 4, EAssoc.LEFT⟩⟩⟩

/-- A concrete later reduce action used to witness C2. -/
def c2second : Action :=
  ⟨⟨2, -1, EAssoc.UNK⟩, EAction.REDUCE, APayload.ru ⟨1, some ⟨6, 2, EAssoc.LEFT⟩⟩⟩

/-- Witness for C2: on two reduces with defined, distinct precedences the
lower-precedence rule's action is marked `RD_RESOLVED` and no conflict is
counted. -/
theorem reduce_reduce_resolution_witness :
    c2first.type = EAction.REDUCE ∧ c2second.type = EAction.REDUCE ∧
    c2first.sp = c2second.sp ∧
    resolve_conflict c2first c2second =
      (c2first, { c2second with type := EAction.RD_RESOLVED }, 0) := by
  refine ⟨rfl, rfl, rfl, ?_⟩
  exact (((reduce_reduce_resolution c2first c2second rfl rfl rfl).2
      ⟨5, 4, EAssoc.LEFT⟩ ⟨6, 2, EAssoc.LEFT⟩ rfl rfl).2 (by decide) (by decide)).1 (by decide)

/-! ## C3: exit status of `main` -/

/-- The counters of a run of `main` that reaches `Parse` (lemon.c
lines 1251-1322): the error count right after `Parse` returns, whether the
parse produced at least one rule (`lem.rule != 0`), the additional errors
counted during the analysis phases, and the conflict count produced by
`FindActions`. -/
structure RunCounts where
  parseErr : Nat
  hasRule : Bool
  analysisErr : Nat
  nconflict : Nat
deriving DecidableEq, Repr

/-- The exit status computed by `main` after `Parse` (lemon.c):
`if( lem.errorcnt ) exit(lem.errorcnt);` then
`if( lem.rule==0 ){ fprintf(stderr,"Empty grammar.\n"); exit(1); }` and
finally `exit(lem.errorcnt + lem.nconflict);` where by then `lem.errorcnt`
is the parse errors (zero on this path) plus the analysis errors. -/
def mainExitStatus (rc : RunCounts) : Nat :=
  if rc.parseErr ≠ 0 then rc.parseErr
  else if rc.hasRule = false then 1
  else (rc.parseErr + rc.analysisErr) + rc.nconflict

/-- The total number of grammar errors counted during a run: when the parse
fails the analysis never runs, so only the parse errors are counted. -/
def totalErrors (rc : RunCounts) : Nat :=
  if rc.parseErr ≠ 0 then rc.parseErr else rc.parseErr + rc.analysisErr

/-- The total number of unresolved conflicts counted during a run: conflicts
are only counted by `FindActions`, which runs only when the parse succeeded. -/
def totalConflicts (rc : RunCounts) : Nat :=
  if rc.parseErr ≠ 0 then 0 else rc.nconflict

/-- Counterexample to C3 as stated: an error-free parse that yields no rules
("Empty grammar.") exits with status 1 although zero grammar errors and zero
conflicts were counted. -/
theorem exit_status_empty_grammar :
    mainExitStatus ⟨0, false, 0, 0⟩ = 1 ∧
    totalErrors ⟨0, false, 0, 0⟩ = 0 ∧ totalConflicts ⟨0, false, 0, 0⟩ = 0 := by
  decide

/-- C3 amended: for every run that reaches `Parse`, provided the parse
produced at least one rule or recorded at least one error, the exit status
equals the number of grammar errors counted plus the number of unresolved
conflicts counted, and is zero exactly when both counters are zero; in
particular, when the grammar parser records errors the tool exits with
exactly that error count before analysis runs.  (The excluded case — an
error-free parse of a rule-less grammar — exits with status 1.) -/
theorem exit_status_eq_errors_plus_conflicts (rc : RunCounts)
    (h : rc.hasRule = true ∨ rc.parseErr ≠ 0) :
    mainExitStatus rc = totalErrors rc + totalConflicts rc ∧
    (mainExitStatus rc = 0 ↔ totalErrors rc = 0 ∧ totalConflicts rc = 0) ∧
    (rc.parseErr ≠ 0 → mainExitStatus rc = rc.parseErr) := by
  rcases hp : rc.parseErr with _ | n
  · rcases h with h | h
    · simp [mainExitStatus, totalErrors, totalConflicts, hp, h]
    · exact absurd hp h
  · simp [mainExitStatus, totalErrors, totalConflicts, hp]

/-- Witness for C3's amended theorem: a run with one analysis error and two
conflicts exits with status 3. -/
theorem exit_status_witness :
    (true = true ∨ (0 : Nat) ≠ 0) ∧
    mainExitStatus ⟨0, true, 1, 2⟩ = totalErrors ⟨0, true, 1, 2⟩ + totalConflicts ⟨0, true, 1, 2⟩ :=
  ⟨Or.inl rfl, (exit_status_eq_errors_plus_conflicts ⟨0, true, 1, 2⟩ (Or.inl rfl)).1⟩

/-! ## C10: duplicate precedence assignment -/

/-- The grammar-parser states of `parseonetoken` that the
`WAITING_FOR_PRECEDENCE_SYMBOL` case can move to. -/
inductive PDState
  | WAITING_FOR_DECL_OR_RULE
  | WAITING_FOR_PRECEDENCE_SYMBOL
deriving DecidableEq, Repr

/-- The precedence/associativity fields of the symbol named by the current
token (the result of `Symbol_new(x)`, which returns the existing symbol when
the name was seen before). -/
structure PSym where
  prec : Int
  assoc : EAssoc
deriving DecidableEq, Repr

/-- The class of the current token's first character, as tested by the
`WAITING_FOR_PRECEDENCE_SYMBOL` case: `'.'`, an upper-case letter, or
anything else. -/
inductive TokClass
  | dot
  | upper
  | other
deriving DecidableEq, Repr

/-- The `WAITING_FOR_PRECEDENCE_SYMBOL` case of `parseonetoken`
(lemon.c lines 2051-2070).  `preccounter` and `declassoc` are the running
precedence counter and the associativity of the current `%left`/`%right`/
`%nonassoc` declaration; `errorcnt` is `psp->errorcnt`; `sym` is the current
state of the named symbol.  Returns the next parser state, the updated error
count and the updated symbol. -/
def precedenceSymbolStep (preccounter : Int) (declassoc : EAssoc)
    (errorcnt : Nat) (cls : TokClass) (sym : PSym) : PDState × Nat × PSym :=
  match cls with
  | TokClass.dot => (PDState.WAITING_FOR_DECL_OR_RULE, errorcnt, sym)
  | TokClass.upper =>
      if 0 ≤ sym.prec then
        (PDState.WAITING_FOR_PRECEDENCE_SYMBOL, errorcnt + 1, sym)
      else
        (PDState.WAITING_FOR_PRECEDENCE_SYMBOL, errorcnt,
          { prec := preccounter, assoc := declassoc })
  | TokClass.other => (PDState.WAITING_FOR_PRECEDENCE_SYMBOL, errorcnt + 1, sym)

/-- C10: duplicate precedence assignment is atomic.  When a terminal that
already has a defined precedence (`sp->prec >= 0`) is listed again under a
`%left`/`%right`/`%nonassoc` declaration, the error counter is incremented
by exactly one and the terminal's precedence and associativity are left
exactly as they were. -/
theorem duplicate_precedence_atomic (preccounter : Int) (declassoc : EAssoc)
    (errorcnt : Nat) (sym : PSym) (h : 0 ≤ sym.prec) :
    precedenceSymbolStep preccounter declassoc errorcnt TokClass.upper sym =
      (PDState.WAITING_FOR_PRECEDENCE_SYMBOL, errorcnt + 1, sym) := by
  simp [precedenceSymbolStep, h]

/-- Witness for C10: a terminal with precedence 2 and `LEFT` associativity,
listed again under a `%right` declaration with counter 5, keeps precedence 2
and `LEFT`, and one error is counted. -/
theorem duplicate_precedence_atomic_witness :
    (0 : Int) ≤ (PSym.mk 2 EAssoc.LEFT).prec ∧
    precedenceSymbolStep 5 EAssoc.RIGHT 0 TokClass.upper ⟨2, EAssoc.LEFT⟩ =
      (PDState.WAITING_FOR_PRECEDENCE_SYMBOL, 1, ⟨2, EAssoc.LEFT⟩) :=
  ⟨by decide, duplicate_precedence_atomic 5 EAssoc.RIGHT 0 ⟨2, EAssoc.LEFT⟩ (by decide)⟩

/-! ## C6: table compression (`CompressTables`) -/

/-- `actioncmp` (lemon.c): compare two actions by look-ahead index, then by
the numeric action kind, then (for reduces) by rule index. -/
def actioncmp (ap1 ap2 : Action) : Int :=
  let rc : Int := (ap1.sp.index : Int) - (ap2.sp.index : Int)
  let rc := if rc = 0 then ap1.type.num - ap2.type.num else rc
  let rc := if rc = 0 then (ap1.xrp.index : Int) - (ap2.xrp.index : Int) else rc
  rc

/-- The sorting relation induced by `actioncmp` (used through `msort`). -/
def actionLe (a b : Action) : Prop := actioncmp a b ≤ 0

instance : DecidableRel actionLe := fun a b => by
  unfold actionLe; infer_instance

/-- `actioncmp a b ≤ 0` is the lexicographic order on
(look-ahead index, kind number, rule index). -/
theorem actioncmp_le_iff (a b : Action) :
    actioncmp a b ≤ 0 ↔
      (a.sp.index < b.sp.index ∨
        (a.sp.index = b.sp.index ∧
          (a.type.num < b.type.num ∨
            (a.type.num = b.type.num ∧ a.xrp.index ≤ b.xrp.index)))) := by
  simp only [actioncmp]
  split_ifs <;> omega

instance : IsTotal Action actionLe :=
  ⟨fun a b => by
    unfold actionLe
    rw [actioncmp_le_iff, actioncmp_le_iff]
    omega⟩

instance : IsTrans Action actionLe :=
  ⟨fun a b c hab hbc => by
    unfold actionLe at *
    rw [actioncmp_le_iff] at *
    omega⟩

/-- `Action_sort` (lemon.c): sort a state's action list with `actioncmp`.
The C `msort` is modelled by insertion sort; both return a permutation of
the input that is sorted for `actioncmp`. -/
def Action_sort (ap : List Action) : List Action :=
  List.insertionSort actionLe ap

/-- Marking used by `CompressTables` on every reduce action after the first:
`if( ap->type==REDUCE ) ap->type = NOT_USED;`. -/
def markNotUsed (b : Action) : Action :=
  if b.type = EAction.REDUCE then { b with type := EAction.NOT_USED } else b

/-- The collapse step of `CompressTables` for one state: the first reduce
action's look-ahead becomes the `"\x7bdefault\x7d"` sentinel symbol and every
later reduce action is marked `NOT_USED`. -/
def collapseDefault (dflt : Sym) : List Action → List Action
  | [] => []
  | a :: rest =>
      if a.type = EAction.REDUCE then
        { a with sp := dflt } :: rest.map markNotUsed
      else
        a :: collapseDefault dflt rest

/-- `CompressTables` for one state (lemon.c lines 3251-3288): find the first
reduce action; if all later reduce actions use the same rule and there are at
least two reduce actions, collapse them into a single default action and
re-sort; otherwise leave the action list unchanged.  `dflt` is the symbol
returned by `Symbol_new("\x7bdefault\x7d")`. -/
def compress_state (dflt : Sym) (ap : List Action) : List Action :=
  match ap.filter (fun a => a.type = EAction.REDUCE) with
  | [] => ap
  | r0 :: tl =>
      if tl ≠ [] ∧ ∀ b ∈ tl, b.xrp = r0.xrp then
        Action_sort (collapseDefault dflt ap)
      else ap

/-- `CompressTables` (lemon.c): apply the per-state compression to every
state's action list. -/
def CompressTables (dflt : Sym) (states : List (List Action)) : List (List Action) :=
  states.map (compress_state dflt)

/-- After `collapseDefault` on a list whose reduce-free prefix is `pre`,
the mapped tail keeps no reduce action. -/
theorem filter_reduce_map_markNotUsed (l : List Action) :
    (l.map markNotUsed).filter (fun a => a.type = EAction.REDUCE) = [] := by
  induction l with
  | nil => rfl
  | cons b rest ih =>
      by_cases hb : b.type = EAction.REDUCE <;>
        simp [markNotUsed, hb, ih]

/-- `collapseDefault` on a decomposed list: the reduce-free prefix passes
through, the first reduce becomes the default action, and the tail is
mapped through `markNotUsed`. -/
theorem collapseDefault_decomp (dflt : Sym) (pre : List Action) (r0 : Action)
    (post : List Action) (hpre : ∀ a ∈ pre, ¬ a.type = EAction.REDUCE)
    (hr0 : r0.type = EAction.REDUCE) :
    collapseDefault dflt (pre ++ r0 :: post) =
      pre ++ { r0 with sp := dflt } :: post.map markNotUsed := by
  induction pre with
  | nil => simp [collapseDefault, hr0]
  | cons a rest ih =>
      have ha : ¬ a.type = EAction.REDUCE := hpre a (by simp)
      have ih2 := ih (fun b hb => hpre b (by simp [hb]))
      simp only [List.cons_append, collapseDefault, if_neg ha, List.append_eq]
      rw [ih2]

/-- C6 amended: per-state table compression.  If a state's action list has at
most one reduce action, or two of its reduce actions use different rules, it
is left unchanged.  Only when ALL of its at-least-two reduce actions share
one rule does `compress_state` collapse them: the first reduce's look-ahead
becomes the `"\x7bdefault\x7d"` sentinel, every later reduce is marked
`NOT_USED`, and the action list is re-sorted. -/
theorem compress_tables_collapse (dflt : Sym) (ap : List Action) :
    ((ap.filter (fun a => a.type = EAction.REDUCE)).length ≤ 1 →
        compress_state dflt ap = ap) ∧
    (∀ r0 tl, ap.filter (fun a => a.type = EAction.REDUCE) = r0 :: tl →
      ((∃ b ∈ tl, b.xrp ≠ r0.xrp) → compress_state dflt ap = ap) ∧
      (tl ≠ [] → (∀ b ∈ tl, b.xrp = r0.xrp) →
        ∃ pre post, ap = pre ++ r0 :: post ∧
          (∀ a ∈ pre, ¬ a.type = EAction.REDUCE) ∧
          compress_state dflt ap =
            Action_sort (pre ++ { r0 with sp := dflt } :: post.map markNotUsed) ∧
          List.Perm (compress_state dflt ap)
            (pre ++ { r0 with sp := dflt } :: post.map markNotUsed) ∧
          List.Sorted actionLe (compress_state dflt ap) ∧
          (pre ++ { r0 with sp := dflt } :: post.map markNotUsed).filter
              (fun a => a.type = EAction.REDUCE) = [{ r0 with sp := dflt }])) := by
  constructor
  · intro hlen
    rcases hf : ap.filter (fun a => a.type = EAction.REDUCE) with _ | ⟨r0, tl⟩
    · simp [compress_state, hf]
    · rw [hf] at hlen
      have htl : tl = [] := by
        simp only [List.length_cons] at hlen
        exact List.eq_nil_of_length_eq_zero (by omega)
      simp [compress_state, hf, htl]
  · intro r0 tl hf
    constructor
    · rintro ⟨b, hb, hbne⟩
      have hcond : ¬ (tl ≠ [] ∧ ∀ b ∈ tl, b.xrp = r0.xrp) := by
        rintro ⟨-, hall⟩
        exact hbne (hall b hb)
      simp [compress_state, hf, hcond]
    · intro htl hall
      obtain ⟨pre, post, hap, hpre, hp, hfpost⟩ := List.filter_eq_cons_iff.mp hf
      have hr0 : r0.type = EAction.REDUCE := by simpa using hp
      have hpre' : ∀ a ∈ pre, ¬ a.type = EAction.REDUCE := by
        intro a ha
        have := hpre a ha
        simpa using this
      refine ⟨pre, post, hap, hpre', ?_⟩
      have hcomp : compress_state dflt ap = Action_sort (collapseDefault dflt ap) := by
        simp only [compress_state, hf]
        rw [if_pos ⟨htl, hall⟩]
      have hcoll : collapseDefault dflt ap =
          pre ++ { r0 with sp := dflt } :: post.map markNotUsed := by
        rw [hap]
        exact collapseDefault_decomp dflt pre r0 post hpre' hr0
      refine ⟨by rw [hcomp, hcoll], ?_, ?_, ?_⟩
      · rw [hcomp, hcoll]
        exact List.perm_insertionSort actionLe _
      · rw [hcomp]
        exact List.sorted_insertionSort actionLe _
      · have h1 : pre.filter (fun a => a.type = EAction.REDUCE) = [] := by
          rw [List.filter_eq_nil_iff]
          intro a ha
          simpa using hpre' a ha
        rw [List.filter_append, h1, List.nil_append,
          List.filter_cons_of_pos (by simpa using hr0), filter_reduce_map_markNotUsed]

/-- Concrete reduce action (rule 0, look-ahead index 1) for the C6
counterexample. -/
def c6a1 : Action := ⟨⟨1, -1, EAssoc.UNK⟩, EAction.REDUCE, APayload.ru ⟨0, none⟩⟩

/-- Concrete reduce action (rule 0, look-ahead index 2) for the C6
counterexample. -/
def c6a2 : Action := ⟨⟨2, -1, EAssoc.UNK⟩, EAction.REDUCE, APayload.ru ⟨0, none⟩⟩

/-- Concrete reduce action (rule 1, look-ahead index 3) for the C6
counterexample. -/
def c6a3 : Action := ⟨⟨3, -1, EAssoc.UNK⟩, EAction.REDUCE, APayload.ru ⟨1, none⟩⟩

/-- The sentinel symbol used in the C6 examples. -/
def c6dflt : Sym := ⟨9, -1, EAssoc.UNK⟩

/-- Counterexample to C6 as stated: a state whose first two reduce actions
share rule 0 while a third reduces by rule 1.  Two or more reduce actions
share the same rule payload, yet `compress_state` leaves the state
completely unchanged: no action gets the sentinel look-ahead and none is
marked `NOT_USED`. -/
theorem compress_tables_counterexample :
    c6a1.xrp = c6a2.xrp ∧ c6a1 ≠ c6a2 ∧
    c6a1.type = EAction.REDUCE ∧ c6a2.type = EAction.REDUCE ∧
    compress_state c6dflt [c6a1, c6a2, c6a3] = [c6a1, c6a2, c6a3] ∧
    (∀ a ∈ compress_state c6dflt [c6a1, c6a2, c6a3],
      a.sp ≠ c6dflt ∧ a.type ≠ EAction.NOT_USED) := by
  decide

/-- Concrete shift action for the C6 witness. -/
def c6b1 : Action := ⟨⟨1, -1, EAssoc.UNK⟩, EAction.SHIFT, APayload.st 4⟩

/-- Concrete reduce action (rule 2, look-ahead index 2) for the C6 witness. -/
def c6b2 : Action := ⟨⟨2, -1, EAssoc.UNK⟩, EAction.REDUCE, APayload.ru ⟨2, none⟩⟩

/-- Concrete reduce action (rule 2, look-ahead index 3) for the C6 witness. -/
def c6b3 : Action := ⟨⟨3, -1, EAssoc.UNK⟩, EAction.REDUCE, APayload.ru ⟨2, none⟩⟩

/-- Witness for the amended C6 theorem on the state
`[shift, reduce rule 2, reduce rule 2]`. -/
theorem compress_tables_collapse_witness :
    ([c6b1, c6b2, c6b3].filter (fun a => a.type = EAction.REDUCE) = c6b2 :: [c6b3]) ∧
    (([c6b3] : List Action) ≠ []) ∧ (∀ b ∈ [c6b3], b.xrp = c6b2.xrp) ∧
    (∃ pre post, [c6b1, c6b2, c6b3] = pre ++ c6b2 :: post ∧
      (∀ a ∈ pre, ¬ a.type = EAction.REDUCE) ∧
      compress_state c6dflt [c6b1, c6b2, c6b3] =
        Action_sort (pre ++ { c6b2 with sp := c6dflt } :: post.map markNotUsed) ∧
      List.Perm (compress_state c6dflt [c6b1, c6b2, c6b3])
        (pre ++ { c6b2 with sp := c6dflt } :: post.map markNotUsed) ∧
      List.Sorted actionLe (compress_state c6dflt [c6b1, c6b2, c6b3]) ∧
      (pre ++ { c6b2 with sp := c6dflt } :: post.map markNotUsed).filter
          (fun a => a.type = EAction.REDUCE) = [{ c6b2 with sp := c6dflt }]) :=
  ⟨by decide, by decide, by decide,
    ((compress_tables_collapse c6dflt [c6b1, c6b2, c6b3]).2 c6b2 [c6b3]
      (by decide)).2 (by decide) (by decide)⟩

/-! ## C7: symbol ordering after the sort in `main` -/

/-- A symbol name: the byte string of the C `char*` (NUL terminator is the
end of the list; a real C string has no interior NUL, captured by
hypotheses where needed). -/
abbrev CName := List Nat

/-- C `strcmp` on byte strings, as used by `Symbolcmpp` (lemon.c): compare
byte-wise, the NUL terminator comparing smaller than any nonzero byte. -/
def strcmp : CName → CName → Int
  | [], [] => 0
  | [], b :: _ => 0 - (b : Int)
  | a :: _, [] => (a : Int)
  | a :: as, b :: bs => if a = b then strcmp as bs else (a : Int) - (b : Int)

/-- `strcmp` of a name with itself is zero. -/
theorem strcmp_self (a : CName) : strcmp a a = 0 := by
  induction a with
  | nil => rfl
  | cons x xs ih => simp [strcmp, ih]

/-- Exchanging the arguments of `strcmp` negates the sign. -/
theorem strcmp_comm_neg (a b : CName) : strcmp b a = - strcmp a b := by
  induction a generalizing b with
  | nil => cases b <;> simp [strcmp]
  | cons x xs ih =>
      cases b with
      | nil => simp [strcmp]
      | cons y ys =>
          by_cases h : x = y
          · subst h; simp [strcmp, ih]
          · have h' : y ≠ x := fun hh => h hh.symm
            simp [strcmp, h, h']

/-- The empty name compares at most zero against anything. -/
theorem strcmp_nil_le (b : CName) : strcmp [] b ≤ 0 := by
  cases b <;> simp [strcmp]

/-- A name is NUL-free: every byte is nonzero (true of every C string). -/
abbrev nulFree (n : CName) : Prop := ∀ b ∈ n, 0 < b

/-- The tail of a NUL-free name is NUL-free. -/
theorem nulFree_tail {x : Nat} {xs : List Nat} (h : nulFree (x :: xs)) :
    nulFree xs :=
  fun b hb => h b (List.mem_cons_of_mem x hb)

/-- On NUL-free names, `strcmp` is zero only for equal names. -/
theorem strcmp_eq_zero (a b : CName) (ha : nulFree a) (hb : nulFree b)
    (h : strcmp a b = 0) : a = b := by
  induction a generalizing b with
  | nil =>
      cases b with
      | nil => rfl
      | cons y ys =>
          exfalso
          have : 0 < y := hb y (by simp)
          simp [strcmp] at h
          omega
  | cons x xs ih =>
      cases b with
      | nil =>
          exfalso
          have : 0 < x := ha x (by simp)
          simp [strcmp] at h
          omega
      | cons y ys =>
          by_cases hxy : x = y
          · subst hxy
            simp only [strcmp, if_pos rfl] at h
            rw [ih ys (nulFree_tail ha) (nulFree_tail hb) h]
          · exfalso
            simp [strcmp, hxy] at h
            omega

/-- On NUL-free names, the `strcmp` order is transitive. -/
theorem strcmp_trans (a b c : CName) (ha : nulFree a) (hb : nulFree b)
    (hc : nulFree c) (hab : strcmp a b ≤ 0) (hbc : strcmp b c ≤ 0) :
    strcmp a c ≤ 0 := by
  induction a generalizing b c with
  | nil => exact strcmp_nil_le c
  | cons x xs ih =>
      cases b with
      | nil =>
          exfalso
          have : 0 < x := ha x (by simp)
          simp [strcmp] at hab
          omega
      | cons y ys =>
          cases c with
          | nil =>
              exfalso
              have : 0 < y := hb y (by simp)
              simp [strcmp] at hbc
              omega
          | cons z zs =>
              by_cases hxy : x = y
              · subst hxy
                by_cases hyz : x = z
                · subst hyz
                  simp only [strcmp, if_pos rfl] at hab hbc ⊢
                  exact ih ys zs (nulFree_tail ha) (nulFree_tail hb)
                    (nulFree_tail hc) hab hbc
                · simp only [strcmp, if_pos rfl, if_neg hyz] at hbc ⊢
                  exact hbc
              · by_cases hyz : y = z
                · subst hyz
                  simp only [strcmp, if_neg hxy] at hab ⊢
                  exact hab
                · simp only [strcmp, if_neg hxy] at hab
                  simp only [strcmp, if_neg hyz] at hbc
                  have hxz : ¬ x = z := by omega
                  simp only [strcmp, if_neg hxz]
                  omega

/-- Insertion step of the sort modelling `qsort(..., Symbolcmpp)` in `main`:
insert a name into an already sorted list of names. -/
def orderedInsertName (n : CName) : List CName → List CName
  | [] => [n]
  | m :: rest =>
      if strcmp n m ≤ 0 then n :: m :: rest else m :: orderedInsertName n rest

/-- The sort of the symbol array performed in `main` with `Symbolcmpp`
(`qsort` is modelled by insertion sort; on distinct names both produce the
unique sorted permutation). -/
def sortSymbols : List CName → List CName
  | [] => []
  | n :: rest => orderedInsertName n (sortSymbols rest)

/-- Inserting `n` produces a permutation of `n :: l`. -/
theorem perm_orderedInsertName (n : CName) (l : List CName) :
    List.Perm (orderedInsertName n l) (n :: l) := by
  induction l with
  | nil => exact List.Perm.refl _
  | cons m rest ih =>
      by_cases h : strcmp n m ≤ 0
      · simp [orderedInsertName, h]
      · simp only [orderedInsertName, if_neg h]
        exact (ih.cons m).trans (List.Perm.swap n m rest)

/-- The sort produces a permutation of its input. -/
theorem perm_sortSymbols (l : List CName) : List.Perm (sortSymbols l) l := by
  induction l with
  | nil => exact List.Perm.refl _
  | cons n rest ih =>
      exact (perm_orderedInsertName n (sortSymbols rest)).trans (ih.cons n)

/-- The order relation used for sortedness of the symbol array. -/
def sLe (a b : CName) : Prop := strcmp a b ≤ 0

/-- Inserting into a sorted list of NUL-free names keeps it sorted. -/
theorem pairwise_orderedInsertName (n : CName) (l : List CName)
    (hn : nulFree n) (hl : ∀ m ∈ l, nulFree m)
    (hs : List.Pairwise sLe l) :
    List.Pairwise sLe (orderedInsertName n l) := by
  induction l with
  | nil => simp [orderedInsertName]
  | cons m rest ih =>
      rcases List.pairwise_cons.mp hs with ⟨hm, hrest⟩
      by_cases h : strcmp n m ≤ 0
      · simp only [orderedInsertName, if_pos h]
        refine List.pairwise_cons.mpr ⟨?_, hs⟩
        intro x hx
        rcases List.mem_cons.mp hx with hx | hx
        · subst hx; exact h
        · exact strcmp_trans n m x hn (hl m (by simp)) (hl x (by simp [hx])) h (hm x hx)
      · simp only [orderedInsertName, if_neg h]
        refine List.pairwise_cons.mpr ⟨?_, ?_⟩
        · intro x hx
          rcases List.mem_cons.mp ((perm_orderedInsertName n rest).mem_iff.mp hx) with hx' | hx'
          · subst hx'
            have := strcmp_comm_neg x m
            unfold sLe
            omega
          · exact hm x hx'
        · exact ih (fun m' hm' => hl m' (by simp [hm'])) hrest

/-- The symbol sort returns a sorted list when all names are NUL-free. -/
theorem pairwise_sortSymbols (l : List CName) (hl : ∀ m ∈ l, nulFree m) :
    List.Pairwise sLe (sortSymbols l) := by
  induction l with
  | nil => simp [sortSymbols]
  | cons n rest ih =>
      refine pairwise_orderedInsertName n (sortSymbols rest) (hl n (by simp)) ?_ ?_
      · intro m hm
        exact hl m (by simp [(perm_sortSymbols rest).mem_iff.mp hm])
      · exact ih (fun m hm => hl m (by simp [hm]))

/-- The index assigned by `main` to a symbol: its position in the sorted
symbol array (first occurrence of its name). -/
def symIndexOf (n : CName) : List CName → Nat
  | [] => 0
  | m :: rest => if m = n then 0 else 1 + symIndexOf n rest

/-- In a sorted, duplicate-free list of NUL-free names, the position of a
name equals the number of strictly smaller names. -/
theorem symIndexOf_eq_count_lt (S : List CName) (hS : List.Pairwise sLe S)
    (hnd : S.Nodup) (hv : ∀ m ∈ S, nulFree m) (n : CName) (hn : n ∈ S) :
    symIndexOf n S = (S.filter (fun m => decide (strcmp m n < 0))).length := by
  induction S with
  | nil => cases hn
  | cons m rest ih =>
      rcases List.pairwise_cons.mp hS with ⟨hm, hrest⟩
      rcases List.nodup_cons.mp hnd with ⟨hmr, hndr⟩
      by_cases hnm : m = n
      · subst hnm
        have hfilt : (m :: rest).filter (fun x => decide (strcmp x m < 0)) = [] := by
          rw [List.filter_eq_nil_iff]
          intro x hx
          rcases List.mem_cons.mp hx with hx | hx
          · subst hx
            simp [strcmp_self]
          · have h1 : strcmp m x ≤ 0 := hm x hx
            have h2 := strcmp_comm_neg m x
            simp only [decide_eq_true_eq]
            omega
        simp [symIndexOf, hfilt]
      · have hn' : n ∈ rest := by
          rcases List.mem_cons.mp hn with h | h
          · exact absurd h.symm hnm
          · exact h
        have hlt : strcmp m n < 0 := by
          have h1 : strcmp m n ≤ 0 := hm n hn'
          have h2 : strcmp m n ≠ 0 := fun h0 =>
            hnm (strcmp_eq_zero m n (hv m (by simp)) (hv n (by simp [hn'])) h0)
          omega
        rw [List.filter_cons_of_pos (by simpa using hlt)]
        simp only [symIndexOf, if_neg hnm]
        rw [ih hrest hndr (fun x hx => hv x (by simp [hx])) hn']
        simp [List.length_cons]
        omega

/-- The first element left by `dropWhile` fails the predicate. -/
theorem dropWhile_head_false {P : CName → Bool} (l : List CName) (d0 : CName)
    (ds : List CName) (h : l.dropWhile P = d0 :: ds) : P d0 = false := by
  induction l with
  | nil => simp [List.dropWhile] at h
  | cons a as ih =>
      by_cases hp : P a = true
      · rw [List.dropWhile_cons_of_pos hp] at h
        exact ih h
      · rw [List.dropWhile_cons_of_neg hp] at h
        injection h with h1 h2
        subst h1
        simpa using hp

/-- The first byte of a name (`name[0]`; 0 for the empty string). -/
def headByte : CName → Nat
  | [] => 0
  | b :: _ => b

/-- `safe_isupper` on a byte: an ASCII upper-case letter. -/
def isUpperByte (b : Nat) : Bool := 65 ≤ b ∧ b ≤ 90

/-- The computation of `lem.nterminal` in `main`:
`for(i=1; safe_isupper(lem.symbols[i]->name[0]); i++); lem.nterminal = i;` —
one plus the number of leading upper-case-initial names after index 0. -/
def nterminalOf (sorted : List CName) : Nat :=
  1 + ((sorted.drop 1).takeWhile (fun n => isUpperByte (headByte n))).length

/-- C7: symbol ordering after the sort in `main`.  For a symbol array whose
names are distinct NUL-free C identifiers plus the sentinel `"$"` (every
other name starts with a byte above 64: an upper-case letter for terminals,
`'_'`, a lower-case letter, or `'\x7b'` for `"\x7bdefault\x7d"`), after
sorting with `Symbolcmpp` and assigning `symbols[i]->index = i`:
the array is a permutation of the input, each symbol's index (= its position
in the sorted array) equals the number of strictly `strcmp`-smaller names,
`"$"` lands at index 0, and the upper-case-initial names (the terminals)
occupy exactly the contiguous index range `1 .. nterminal-1`. -/
theorem symbol_ordering (names : List CName)
    (hnd : names.Nodup)
    (hdollar : [36] ∈ names)
    (hshape : ∀ n ∈ names, n ≠ [36] → ∃ b bs, n = b :: bs ∧ 64 < b)
    (hvalid : ∀ n ∈ names, nulFree n) :
    List.Perm (sortSymbols names) names ∧
    (∀ n ∈ names, symIndexOf n (sortSymbols names) =
        (names.filter (fun m => decide (strcmp m n < 0))).length) ∧
    (sortSymbols names).head? = some [36] ∧
    (∃ us vs, sortSymbols names = [36] :: (us ++ vs) ∧
      (∀ u ∈ us, isUpperByte (headByte u) = true) ∧
      (∀ v ∈ vs, isUpperByte (headByte v) = false) ∧
      nterminalOf (sortSymbols names) = 1 + us.length ∧
      (∀ n ∈ names, n ≠ [36] → (isUpperByte (headByte n) = true ↔ n ∈ us))) := by
  have hperm := perm_sortSymbols names
  have hvS : ∀ m ∈ sortSymbols names, nulFree m :=
    fun m hm => hvalid m (hperm.mem_iff.mp hm)
  have hndS : (sortSymbols names).Nodup := hperm.nodup_iff.mpr hnd
  have hpw := pairwise_sortSymbols names hvalid
  have hdS : [36] ∈ sortSymbols names := hperm.mem_iff.mpr hdollar
  -- the head of the sorted array is "$"
  obtain ⟨m, rest, hcons⟩ : ∃ m rest, sortSymbols names = m :: rest := by
    cases hS : sortSymbols names with
    | nil => rw [hS] at hdS; cases hdS
    | cons m rest => exact ⟨m, rest, rfl⟩
  have hm36 : m = [36] := by
    by_contra hne
    have hmem : m ∈ names := hperm.mem_iff.mp (by simp [hcons])
    obtain ⟨b, bs, hmbs, hb⟩ := hshape m hmem hne
    have hdrest : [36] ∈ rest := by
      rw [hcons] at hdS
      rcases List.mem_cons.mp hdS with h | h
      · exact absurd h.symm hne
      · exact h
    have hle : sLe m [36] := by
      rw [hcons] at hpw
      exact (List.pairwise_cons.mp hpw).1 [36] hdrest
    unfold sLe at hle
    rw [hmbs] at hle
    have hbne : ¬ b = 36 := by omega
    simp [strcmp, hbne] at hle
    omega
  subst hm36
  refine ⟨hperm, ?_, by rw [hcons]; rfl, ?_⟩
  · intro n hn
    have := symIndexOf_eq_count_lt (sortSymbols names) hpw hndS hvS n (hperm.mem_iff.mpr hn)
    rw [this]
    exact ((hperm.filter _).length_eq)
  · -- decompose the tail into the upper-case block and the rest
    have hrest_pw : List.Pairwise sLe rest := (List.pairwise_cons.mp (hcons ▸ hpw)).2
    have hrest_shape : ∀ v ∈ rest, ∃ b bs, v = b :: bs ∧ 64 < b := by
      intro v hv
      have hvn : v ∈ names := hperm.mem_iff.mp (by simp [hcons, hv])
      have hvne : v ≠ [36] := by
        intro h
        subst h
        have := (List.nodup_cons.mp (hcons ▸ hndS)).1
        exact this hv
      exact hshape v hvn hvne
    set upperP : CName → Bool := fun n => isUpperByte (headByte n) with hupperP
    have hdrop_false : ∀ v ∈ rest.dropWhile upperP, upperP v = false := by
      intro v hv
      rcases hd : rest.dropWhile upperP with _ | ⟨d0, vs'⟩
      · rw [hd] at hv; cases hv
      · have hd0 : upperP d0 = false := dropWhile_head_false rest d0 vs' hd
        have hd0r : d0 ∈ rest := (List.dropWhile_sublist upperP).subset (by rw [hd]; simp)
        obtain ⟨b0, bs0, hd0eq, hb0⟩ := hrest_shape d0 hd0r
        have hb0hi : 90 < b0 := by
          rw [hd0eq] at hd0
          simp [hupperP, isUpperByte, headByte] at hd0
          omega
        rw [hd] at hv
        rcases List.mem_cons.mp hv with hv | hv
        · subst hv; exact hd0
        · have hpw_vs : List.Pairwise sLe (d0 :: vs') := by
            have := List.Pairwise.sublist (List.dropWhile_sublist upperP (l := rest)) hrest_pw
            rwa [hd] at this
          have hle : sLe d0 v := (List.pairwise_cons.mp hpw_vs).1 v hv
          obtain ⟨bv, bsv, hveq, hbv⟩ := hrest_shape v
            ((List.dropWhile_sublist upperP).subset (by rw [hd]; simp [hv]))
          unfold sLe at hle
          rw [hd0eq, hveq] at hle
          have hbb : b0 ≤ bv := by
            by_cases hbe : b0 = bv
            · omega
            · simp [strcmp, hbe] at hle; omega
          rw [hveq]
          simp [hupperP, isUpperByte, headByte]
          omega
    refine ⟨rest.takeWhile upperP, rest.dropWhile upperP, ?_, ?_, hdrop_false, ?_, ?_⟩
    · rw [hcons, List.takeWhile_append_dropWhile]
    · intro u hu
      exact List.mem_takeWhile_imp (p := upperP) hu
    · rw [hcons]
      simp [nterminalOf]
    · intro n hn hne
      have hnS : n ∈ sortSymbols names := hperm.mem_iff.mpr hn
      have hnr : n ∈ rest := by
        rw [hcons] at hnS
        rcases List.mem_cons.mp hnS with h | h
        · exact absurd h hne
        · exact h
      constructor
      · intro hup
        have hsplit := List.takeWhile_append_dropWhile (p := upperP) (l := rest)
        rw [← hsplit] at hnr
        rcases List.mem_append.mp hnr with h | h
        · exact h
        · exfalso
          have hfalse : isUpperByte (headByte n) = false := by
            have := hdrop_false n h
            simpa [hupperP] using this
          rw [hfalse] at hup
          cases hup
      · intro hu
        exact List.mem_takeWhile_imp (p := upperP) hu

/-- A small concrete symbol array for the C7 witness: `"x"`, `"A"`, `"$"`,
and a name starting with `'\x7b'`. -/
def c7names : List CName := [[120], [65], [36], [123, 100]]

/-- Witness for C7: the hypotheses hold of `c7names` and the sorted array
starts with `"$"`. -/
theorem symbol_ordering_witness :
    c7names.Nodup ∧ [36] ∈ c7names ∧
    (∀ n ∈ c7names, n ≠ [36] → ∃ b bs, n = b :: bs ∧ 64 < b) ∧
    (∀ n ∈ c7names, nulFree n) ∧
    (sortSymbols c7names).head? = some [36] := by
  have hshape : ∀ n ∈ c7names, n ≠ [36] → ∃ b bs, n = b :: bs ∧ 64 < b := by
    intro n hn hne
    simp only [c7names, List.mem_cons] at hn
    rcases hn with h | h | h | h | h
    · exact ⟨120, [], by rw [h], by omega⟩
    · exact ⟨65, [], by rw [h], by omega⟩
    · exact absurd h (by simpa using hne)
    · exact ⟨123, [100], by rw [h], by omega⟩
    · cases h
  refine ⟨by decide, by decide, hshape, by decide, ?_⟩
  exact (symbol_ordering c7names (by decide) (by decide) hshape (by decide)).2.2.1

/-! ## C8: header write suppression (`ReportHeader`) -/

/-- Decimal digits of a number, as ASCII bytes (helper for `%d`). -/
def digitsAux : Nat → Nat → List Nat
  | 0, _ => []
  | f + 1, n => if n < 10 then [48 + n] else digitsAux f (n / 10) ++ [48 + n % 10]

/-- `%d`: the ASCII decimal rendering of a nonnegative number. -/
def decimalBytes (n : Nat) : List Nat := digitsAux (n + 1) n

/-- `%2d`: right-justified in a field of (at least) two characters. -/
def fmt2d (n : Nat) : List Nat :=
  if n < 10 then 32 :: decimalBytes n else decimalBytes n

/-- `%-30s`: left-justified in a field of at least thirty characters. -/
def padTo30 (name : CName) : CName :=
  name ++ List.replicate (30 - name.length) 32

/-- One line of the generated header,
`sprintf(pattern,"#define %s%-30s %2d\n",prefix,lemp->symbols[i]->name,i)`. -/
def headerLine (pfx name : CName) (i : Nat) : CName :=
  [35, 100, 101, 102, 105, 110, 101, 32] ++ pfx ++ padTo30 name ++ [32] ++ fmt2d i ++ [10]

/-- The header text `ReportHeader` would write: one `#define` line per
terminal, for terminal indices `1` through `nterminal - 1`.  `terms` is the
list of terminal names at indices `1, 2, ...`. -/
def ReportHeaderLines (pfx : CName) (terms : List CName) : List CName :=
  (List.enumFrom 1 terms).map (fun p => headerLine pfx p.2 p.1)

/-- The comparison loop of `ReportHeader` (lemon.c lines 3223-3233):
read one existing line per expected pattern line; stop unequal (rewrite)
or when a read fails before all patterns are checked (rewrite); if every
pattern line matched, suppress the write — whatever else the file holds. -/
def headerCheck : List CName → List CName → Bool
  | [], _ => true
  | _ :: _, [] => false
  | p :: ps, l :: ls => if l = p then headerCheck ps ls else false

/-- `ReportHeader`'s decision to suppress the rewrite: requires the existing
`.h` file to open (`none` models a failed `file_open`), then runs the
comparison loop. -/
def ReportHeader_suppress (existing : Option (List CName)) (pfx : CName)
    (terms : List CName) : Bool :=
  match existing with
  | none => false
  | some fl => headerCheck (ReportHeaderLines pfx terms) fl

/-- The comparison loop succeeds exactly when the expected lines are an
initial segment of the file's lines. -/
theorem headerCheck_iff (ps ls : List CName) :
    headerCheck ps ls = true ↔ ∃ rest, ls = ps ++ rest := by
  induction ps generalizing ls with
  | nil =>
      constructor
      · intro _; exact ⟨ls, rfl⟩
      · intro _; rfl
  | cons p ps ih =>
      cases ls with
      | nil =>
          constructor
          · intro h; exact absurd h (by simp [headerCheck])
          · rintro ⟨rest, h⟩; exact absurd h (by simp)
      | cons l ls' =>
          constructor
          · intro h
            by_cases hl : l = p
            · subst hl
              have h' : headerCheck ps ls' = true := by
                simpa [headerCheck] using h
              obtain ⟨rest, hr⟩ := (ih ls').mp h'
              exact ⟨rest, by rw [hr]; rfl⟩
            · exact absurd h (by simp [headerCheck, hl])
          · rintro ⟨rest, hr⟩
            injection hr with h1 h2
            subst h1
            have hc : headerCheck ps ls' = true := (ih ls').mpr ⟨rest, h2⟩
            simpa [headerCheck] using hc

/-- C8 amended: `ReportHeader` suppresses the rewrite exactly when the
existing `.h` file opens and its first `nterminal - 1` lines are exactly the
lines that would be written (content beyond those lines is never examined);
in particular an unchanged file — the result of a previous run on the same
grammar — is always left unwritten. -/
theorem report_header_suppression (existing : Option (List CName))
    (pfx : CName) (terms : List CName) :
    (ReportHeader_suppress existing pfx terms = true ↔
      ∃ fl rest, existing = some fl ∧ fl = ReportHeaderLines pfx terms ++ rest) ∧
    ReportHeader_suppress (some (ReportHeaderLines pfx terms)) pfx terms = true := by
  constructor
  · cases existing with
    | none =>
        simp only [ReportHeader_suppress]
        constructor
        · intro h; cases h
        · rintro ⟨fl, rest, h, -⟩; cases h
    | some fl =>
        simp only [ReportHeader_suppress, headerCheck_iff]
        constructor
        · rintro ⟨rest, h⟩; exact ⟨fl, rest, rfl, h⟩
        · rintro ⟨fl', rest, h1, h2⟩
          injection h1 with h1
          exact ⟨rest, by rw [h1, h2]⟩
  · simp only [ReportHeader_suppress, headerCheck_iff]
    exact ⟨[], by simp⟩

/-- The terminal-name list of the C8 counterexample: one terminal `"A"`. -/
def c8terms : List CName := [[65]]

/-- Counterexample to C8 as stated: a `.h` file holding the expected
`#define` line for `"A"` followed by an extra junk line `"j\n"` is NOT
identical to the header text that would be written, yet the rewrite is
suppressed. -/
theorem report_header_counterexample :
    ReportHeader_suppress
        (some (ReportHeaderLines [] c8terms ++ [[106, 10]])) [] c8terms = true ∧
    ReportHeaderLines [] c8terms ++ [[106, 10]] ≠ ReportHeaderLines [] c8terms := by
  decide

/-! ## C9: error message formatting (`ErrorMsg` and `findbreak`) -/

/-- The output streams of the process. -/
inductive OutStream
  | stdout
  | stderr
deriving DecidableEq, Repr

/-- The stream `ErrorMsg` prints its lines to:
`fprintf(stdout,"%s%.*s\n",prefix,end,&errmsg[base])` (lemon.c line 1136). -/
def ErrorMsg_stream : OutStream := OutStream.stdout

/-- Reading `msg[i]` from a C string modelled as its byte list: positions
past the end read the NUL terminator. -/
def byteAt (msg : List Nat) (i : Nat) : Nat := msg.getD i 0

/-- The scan loop of `findbreak` (lemon.c lines 1078-1091), on the message
suffix starting at the caller's base.  `spot` is the best break position so
far, `i` the loop counter, `mx` the inclusive scan bound (`max`).  Tabs are
rewritten to spaces; a newline is rewritten to a space and breaks there; NUL
breaks there; a hyphen well before the margin proposes the following
position; a space proposes its own position.  The fuel `mx + 1 - i` always
suffices. -/
def findbreakAux : Nat → List Nat → Nat → Nat → Nat → List Nat × Nat
  | 0, msg, spot, _, _ => (msg, spot)
  | f + 1, msg, spot, i, mx =>
    if mx < i then (msg, spot)
    else if byteAt msg i = 9 then findbreakAux f (msg.set i 32) spot (i + 1) mx
    else if byteAt msg i = 10 then (msg.set i 32, i)
    else if byteAt msg i = 0 then (msg, i)
    else if byteAt msg i = 45 ∧ i < mx - 1 then findbreakAux f msg (i + 1) (i + 1) mx
    else if byteAt msg i = 32 then findbreakAux f msg i (i + 1) mx
    else findbreakAux f msg spot (i + 1) mx

/-- `findbreak(msg, min, max)` (always called with `min = 0`). -/
def findbreak (msg : List Nat) (mn mx : Nat) : List Nat × Nat :=
  findbreakAux (mx + 1 - mn) msg mn mn mx

/-- `while( errmsg[restart]==' ' ) restart++;` — skip spaces from `i`. -/
def skipSpacesAux : Nat → List Nat → Nat → Nat
  | 0, _, i => i
  | f + 1, msg, i => if byteAt msg i = 32 then skipSpacesAux f msg (i + 1) else i

/-- Skip the spaces of `msg` starting at position `i`. -/
def skipSpaces (msg : List Nat) (i : Nat) : Nat :=
  skipSpacesAux (msg.length + 1 - i) msg i

/-- The print loop of `ErrorMsg` (lemon.c lines 1130-1138), operating on the
message suffix from the current `base`: while the suffix is nonempty, run
`findbreak`, emit `prefix` plus the first `end` bytes of the (mutated)
suffix, then continue past the break and any following spaces.  `none`
models running out of fuel (the C loop does not terminate on a break-less
over-long word). -/
def ErrorMsg_linesAux : Nat → List Nat → Nat → List Nat → Option (List (List Nat))
  | 0, _, _, _ => none
  | f + 1, pfx, aw, msg =>
    if byteAt msg 0 = 0 then some []
    else
      match ErrorMsg_linesAux f pfx aw
          ((findbreak msg 0 aw).1.drop
            (skipSpaces (findbreak msg 0 aw).1 (findbreak msg 0 aw).2)) with
      | none => none
      | some rest =>
          some ((pfx ++ (findbreak msg 0 aw).1.take (findbreak msg 0 aw).2) :: rest)

/-- The per-line prefix of `ErrorMsg` (lemon.c lines 1113-1117): the file
name truncated to `PREFIXLIMIT-10 = 20` bytes, then `":%d: "` when a line
number is given, `": "` otherwise. -/
def ErrorMsg_preamble (filename : List Nat) (lineno : Nat) : List Nat :=
  if 0 < lineno then
    filename.take 20 ++ [58] ++ decimalBytes lineno ++ [58, 32]
  else
    filename.take 20 ++ [58, 32]

/-- `while( errmsgsize>0 && errmsg[errmsgsize-1]=='\n' )` — remove the
trailing newlines of the formatted message. -/
def stripTrailingNewlines (l : List Nat) : List Nat :=
  (l.reverse.dropWhile (fun b => b = 10)).reverse

/-- `ErrorMsg` (lemon.c lines 1101-1139): compute the prefix, the available
width `79 - prefixsize`, strip trailing newlines, and emit the wrapped
lines.  The fuel bounds the iterations of a loop that advances through the
message (plus one tab-rewriting pass per remaining byte). -/
def ErrorMsg_run (filename : List Nat) (lineno : Nat) (errmsg : List Nat) :
    Option (List (List Nat)) :=
  ErrorMsg_linesAux (2 * (stripTrailingNewlines errmsg).length + 2)
    (ErrorMsg_preamble filename lineno)
    (79 - (ErrorMsg_preamble filename lineno).length)
    (stripTrailingNewlines errmsg)

/-- Setting one byte leaves the others unchanged. -/
theorem byteAt_set_ne (msg : List Nat) (i j v : Nat) (h : i ≠ j) :
    byteAt (msg.set i v) j = byteAt msg j := by
  unfold byteAt
  rw [List.getD_eq_getElem?_getD, List.getD_eq_getElem?_getD,
    List.getElem?_set_ne h]

/-- The break position returned by the `findbreak` loop never exceeds the
scan bound. -/
theorem findbreakAux_spot_le (fuel : Nat) :
    ∀ msg spot i mx, spot ≤ mx → (findbreakAux fuel msg spot i mx).2 ≤ mx := by
  induction fuel with
  | zero => intro msg spot i mx h; simpa [findbreakAux] using h
  | succ f ih =>
      intro msg spot i mx h
      by_cases hi : mx < i
      · rw [findbreakAux, if_pos hi]; exact h
      · by_cases h9 : byteAt msg i = 9
        · rw [findbreakAux, if_neg hi, if_pos h9]
          exact ih (msg.set i 32) spot (i + 1) mx h
        · by_cases h10 : byteAt msg i = 10
          · rw [findbreakAux, if_neg hi, if_neg h9, if_pos h10]; omega
          · by_cases h0 : byteAt msg i = 0
            · rw [findbreakAux, if_neg hi, if_neg h9, if_neg h10, if_pos h0]; omega
            · by_cases h45 : byteAt msg i = 45 ∧ i < mx - 1
              · rw [findbreakAux, if_neg hi, if_neg h9, if_neg h10, if_neg h0,
                  if_pos h45]
                exact ih msg (i + 1) (i + 1) mx (by omega)
              · by_cases h32 : byteAt msg i = 32
                · rw [findbreakAux, if_neg hi, if_neg h9, if_neg h10, if_neg h0,
                    if_neg h45, if_pos h32]
                  exact ih msg i (i + 1) mx (by omega)
                · rw [findbreakAux, if_neg hi, if_neg h9, if_neg h10, if_neg h0,
                    if_neg h45, if_neg h32]
                  exact ih msg spot (i + 1) mx h

/-- The break-quality invariant of `findbreak`: the proposed break position
is the scan start, or indexes a space or the NUL terminator, or directly
follows a hyphen. -/
def breakProp (msg : List Nat) (s : Nat) : Prop :=
  s = 0 ∨ byteAt msg s = 32 ∨ byteAt msg s = 0 ∨ (0 < s ∧ byteAt msg (s - 1) = 45)

/-- Rewriting a tab to a space preserves the break-quality invariant. -/
theorem breakProp_set_tab (msg : List Nat) (s i : Nat)
    (hp : breakProp msg s) (hi : byteAt msg i = 9) :
    breakProp (msg.set i 32) s := by
  rcases hp with h | h | h | ⟨hs, h⟩
  · exact Or.inl h
  · refine Or.inr (Or.inl ?_)
    have hne : i ≠ s := fun he => by rw [he, h] at hi; cases hi
    rw [byteAt_set_ne msg i s 32 hne, h]
  · refine Or.inr (Or.inr (Or.inl ?_))
    have hne : i ≠ s := fun he => by rw [he, h] at hi; cases hi
    rw [byteAt_set_ne msg i s 32 hne, h]
  · refine Or.inr (Or.inr (Or.inr ⟨hs, ?_⟩))
    have hne : i ≠ s - 1 := fun he => by rw [he, h] at hi; cases hi
    rw [byteAt_set_ne msg i (s - 1) 32 hne, h]

/-- The `findbreak` loop maintains the break-quality invariant. -/
theorem findbreakAux_breakProp (fuel : Nat) :
    ∀ msg spot i mx, breakProp msg spot →
      breakProp (findbreakAux fuel msg spot i mx).1
        (findbreakAux fuel msg spot i mx).2 := by
  induction fuel with
  | zero => intro msg spot i mx h; simpa [findbreakAux] using h
  | succ f ih =>
      intro msg spot i mx h
      by_cases hi : mx < i
      · rw [findbreakAux, if_pos hi]; exact h
      · by_cases h9 : byteAt msg i = 9
        · rw [findbreakAux, if_neg hi, if_pos h9]
          exact ih _ _ _ _ (breakProp_set_tab msg spot i h h9)
        · by_cases h10 : byteAt msg i = 10
          · rw [findbreakAux, if_neg hi, if_neg h9, if_pos h10]
            refine Or.inr (Or.inl ?_)
            have hlen : i < msg.length := by
              by_contra hge
              have hz : byteAt msg i = 0 := by
                unfold byteAt
                rw [List.getD_eq_getElem?_getD, List.getElem?_eq_none (by omega)]
                rfl
              rw [hz] at h10; cases h10
            unfold byteAt
            rw [List.getD_eq_getElem?_getD, List.getElem?_set_self hlen]
            rfl
          · by_cases h0 : byteAt msg i = 0
            · rw [findbreakAux, if_neg hi, if_neg h9, if_neg h10, if_pos h0]
              exact Or.inr (Or.inr (Or.inl h0))
            · by_cases h45 : byteAt msg i = 45 ∧ i < mx - 1
              · rw [findbreakAux, if_neg hi, if_neg h9, if_neg h10, if_neg h0,
                  if_pos h45]
                exact ih _ _ _ _
                  (Or.inr (Or.inr (Or.inr ⟨by omega, by simpa using h45.1⟩)))
              · by_cases h32 : byteAt msg i = 32
                · rw [findbreakAux, if_neg hi, if_neg h9, if_neg h10, if_neg h0,
                    if_neg h45, if_pos h32]
                  exact ih _ _ _ _ (Or.inr (Or.inl h32))
                · rw [findbreakAux, if_neg hi, if_neg h9, if_neg h10, if_neg h0,
                    if_neg h45, if_neg h32]
                  exact ih _ _ _ _ h

/-- Every line emitted by the `ErrorMsg` print loop is the prefix followed
by at most `aw` message bytes cut at a break point. -/
theorem ErrorMsg_linesAux_prop (pfx : List Nat) (aw : Nat) :
    ∀ fuel msg out, ErrorMsg_linesAux fuel pfx aw msg = some out →
      ∀ line ∈ out, ∃ m2 e, line = pfx ++ m2.take e ∧ e ≤ aw ∧
        (e = 0 ∨ byteAt m2 e = 32 ∨ byteAt m2 e = 0 ∨
          (0 < e ∧ byteAt m2 (e - 1) = 45)) := by
  intro fuel
  induction fuel with
  | zero => intro msg out h; cases h
  | succ f ih =>
      intro msg out h
      rw [ErrorMsg_linesAux] at h
      by_cases h0 : byteAt msg 0 = 0
      · rw [if_pos h0] at h
        injection h with h
        subst h
        intro line hline
        cases hline
      · rw [if_neg h0] at h
        rcases hrec : ErrorMsg_linesAux f pfx aw
            ((findbreak msg 0 aw).1.drop (skipSpaces (findbreak msg 0 aw).1 (findbreak msg 0 aw).2)) with
          _ | rest
        · rw [hrec] at h; cases h
        · rw [hrec] at h
          injection h with h
          subst h
          intro line hline
          rcases List.mem_cons.mp hline with hl | hl
          · refine ⟨(findbreak msg 0 aw).1, (findbreak msg 0 aw).2, hl, ?_, ?_⟩
            · exact findbreakAux_spot_le (aw + 1 - 0) msg 0 0 aw (by omega)
            · exact findbreakAux_breakProp (aw + 1 - 0) msg 0 0 aw (Or.inl rfl)
          · exact ih _ rest hrec line hl

/-- A number below `10^k` has at most `k` decimal digits. -/
theorem digitsAux_length_le (f : Nat) :
    ∀ n k, 1 ≤ k → n < 10 ^ k → (digitsAux f n).length ≤ k := by
  induction f with
  | zero => intro n k hk _; simp [digitsAux]
  | succ f ih =>
      intro n k hk hn
      by_cases hlt : n < 10
      · rw [digitsAux, if_pos hlt]
        simpa using hk
      · have hk2 : 2 ≤ k := by
          by_contra hlt2
          have hk1 : k = 1 := by omega
          subst hk1
          simp only [pow_one] at hn
          omega
        have h1 : 10 ^ k = 10 ^ (k - 1) * 10 := by
          rw [← pow_succ]
          congr 1
          omega
        have hq : n / 10 < 10 ^ (k - 1) := by
          rw [Nat.div_lt_iff_lt_mul (by norm_num)]
          omega
        have hrec := ih (n / 10) (k - 1) (by omega) hq
        rw [digitsAux, if_neg hlt]
        simp only [List.length_append, List.length_cons, List.length_nil]
        omega

/-- The prefix of an error line is at most 33 bytes: twenty file-name bytes,
a colon, up to ten line-number digits (the line number is a C `int`), and
`": "`. -/
theorem ErrorMsg_preamble_length_le (filename : List Nat) (lineno : Nat)
    (h : lineno < 10 ^ 10) :
    (ErrorMsg_preamble filename lineno).length ≤ 33 := by
  have htake : (filename.take 20).length ≤ 20 := by
    simp [List.length_take]
  have hdig : (decimalBytes lineno).length ≤ 10 :=
    digitsAux_length_le (lineno + 1) lineno 10 (by omega) h
  unfold ErrorMsg_preamble
  by_cases hl : 0 < lineno
  · rw [if_pos hl]
    simp only [List.length_append, List.length_cons, List.length_nil]
    omega
  · rw [if_neg hl]
    simp only [List.length_append, List.length_cons, List.length_nil]
    omega

/-- Counterexample to C9 as stated: the diagnostic lines of `ErrorMsg` are
written to the standard-output stream, not standard error
(`fprintf(stdout, ...)` in lemon.c line 1136). -/
theorem error_msg_stream_counterexample :
    ErrorMsg_stream = OutStream.stdout ∧ OutStream.stdout ≠ OutStream.stderr := by
  decide

/-- C9 amended: every diagnostic produced by `ErrorMsg` is written to the
standard-OUTPUT stream; each emitted line is the `file:line: ` prefix (or
`file: ` when no line number applies) followed by a chunk of the message, no
line exceeds 79 columns, and each chunk is cut at the scan start, a space
(also standing in for a rewritten tab or newline), the end of the message,
or just after a hyphen near the right margin. -/
theorem error_msg_format (filename : List Nat) (lineno : Nat)
    (errmsg : List Nat) (hline : lineno < 10 ^ 10) (out : List (List Nat))
    (hrun : ErrorMsg_run filename lineno errmsg = some out) :
    ErrorMsg_stream = OutStream.stdout ∧
    (∀ line ∈ out, line.length ≤ 79 ∧
      ∃ m2 e, line = ErrorMsg_preamble filename lineno ++ m2.take e ∧
        (e = 0 ∨ byteAt m2 e = 32 ∨ byteAt m2 e = 0 ∨
          (0 < e ∧ byteAt m2 (e - 1) = 45))) := by
  refine ⟨rfl, ?_⟩
  intro line hmem
  unfold ErrorMsg_run at hrun
  obtain ⟨m2, e, heq, hle, hbrk⟩ :=
    ErrorMsg_linesAux_prop (ErrorMsg_preamble filename lineno)
      (79 - (ErrorMsg_preamble filename lineno).length) _ _ out hrun line hmem
  refine ⟨?_, m2, e, heq, hbrk⟩
  have hpfx := ErrorMsg_preamble_length_le filename lineno hline
  rw [heq]
  simp only [List.length_append, List.length_take]
  omega

/-- The file name `"f"` of the C9 witness. -/
def c9fn : List Nat := [102]

/-- The message `"bad token
"` of the C9 witness. -/
def c9msg : List Nat := [98, 97, 100, 32, 116, 111, 107, 101, 110, 10]

/-- The single output line `"f:3: bad token"` of the C9 witness. -/
def c9out : List (List Nat) :=
  [[102, 58, 51, 58, 32, 98, 97, 100, 32, 116, 111, 107, 101, 110]]

/-- Witness for the amended C9 theorem: `ErrorMsg("f", 3, "bad token
")`
emits the single line `"f:3: bad token"`, within 79 columns and carrying the
`f:3: ` prefix. -/
theorem error_msg_format_witness :
    (3 : Nat) < 10 ^ 10 ∧ ErrorMsg_run c9fn 3 c9msg = some c9out ∧
    (ErrorMsg_stream = OutStream.stdout ∧
      (∀ line ∈ c9out, line.length ≤ 79 ∧
        ∃ m2 e, line = ErrorMsg_preamble c9fn 3 ++ m2.take e ∧
          (e = 0 ∨ byteAt m2 e = 32 ∨ byteAt m2 e = 0 ∨
            (0 < e ∧ byteAt m2 (e - 1) = 45)))) :=
  ⟨by norm_num, by decide, error_msg_format c9fn 3 c9msg (by norm_num) c9out (by decide)⟩

/-! ## C4: nullability and FIRST sets (`FindFirstSets`) -/

/-- A production rule for the grammar analysis: left-hand nonterminal and
right-hand side, both given by symbol index (the index assigned after the
sort in `main`). -/
structure GRule where
  lhs : Nat
  rhs : List Nat
deriving DecidableEq, Repr

/-- The grammar data `FindFirstSets` consumes: symbol and terminal counts
and the rule list (in the order of `lemp->rule`).  After the sort of C7, a
symbol is a terminal exactly when its index is below `nterminal`, which is
the test this model uses for `s->type==TERMINAL`. -/
structure Grammar where
  nsymbol : Nat
  nterminal : Nat
  rules : List GRule
deriving DecidableEq, Repr

/-- One rule of the lambda fixed-point pass (lemon.c lines 479-488): skip a
rule whose LHS is already nullable; if every RHS symbol is nullable, set the
LHS nullable and report progress. -/
def lambdaPass : List GRule → List Bool → List Bool × Bool
  | [], lam => (lam, false)
  | r :: rs, lam =>
      if lam.getD r.lhs false then lambdaPass rs lam
      else if r.rhs.all (fun s => lam.getD s false) then
        ((lambdaPass rs (lam.set r.lhs true)).1, true)
      else lambdaPass rs lam

/-- The `do ... while(progress)` driving the lambda computation; the fuel
chosen by `FindFirstSets` always suffices. -/
def lambdaLoop : Nat → List GRule → List Bool → List Bool
  | 0, _, lam => lam
  | f + 1, rules, lam =>
      if (lambdaPass rules lam).2 then lambdaLoop f rules (lambdaPass rules lam).1
      else (lambdaPass rules lam).1

/-- Reading a nullable flag (`sp->lambda`). -/
def lamAt (lam : List Bool) (s : Nat) : Prop := lam.getD s false = true

/-- A nullability assignment closed under the grammar: a nonterminal with a
rule whose RHS symbols are all nullable is nullable (vacuously for an empty
RHS). -/
def lambdaClosed (rules : List GRule) (L : Nat → Prop) : Prop :=
  ∀ r ∈ rules, (∀ s ∈ r.rhs, L s) → L r.lhs

/-- A pass that reports no progress leaves the flags unchanged. -/
theorem lambdaPass_false (rules : List GRule) :
    ∀ lam, (lambdaPass rules lam).2 = false → (lambdaPass rules lam).1 = lam := by
  induction rules with
  | nil => intro lam _; rfl
  | cons r rs ih =>
      intro lam h
      by_cases h1 : lam.getD r.lhs false
      · rw [lambdaPass, if_pos h1] at h ⊢
        exact ih lam h
      · by_cases h2 : r.rhs.all (fun s => lam.getD s false)
        · rw [lambdaPass, if_neg h1, if_pos h2] at h
          cases h
        · rw [lambdaPass, if_neg h1, if_neg h2] at h ⊢
          exact ih lam h

/-- A pass never clears a nullable flag. -/
theorem lambdaPass_mono (rules : List GRule) :
    ∀ lam s, lamAt lam s → lamAt (lambdaPass rules lam).1 s := by
  induction rules with
  | nil => intro lam s h; exact h
  | cons r rs ih =>
      intro lam s h
      by_cases h1 : lam.getD r.lhs false
      · rw [lambdaPass, if_pos h1]
        exact ih lam s h
      · by_cases h2 : r.rhs.all (fun s => lam.getD s false)
        · rw [lambdaPass, if_neg h1, if_pos h2]
          refine ih (lam.set r.lhs true) s ?_
          unfold lamAt at h ⊢
          by_cases hs : r.lhs = s
          · subst hs
            have hlen : r.lhs < lam.length := by
              by_contra hge
              rw [List.getD_eq_getElem?_getD, List.getElem?_eq_none (by omega)] at h
              cases h
            rw [List.getD_eq_getElem?_getD, List.getElem?_set_self hlen]
            rfl
          · rw [List.getD_eq_getElem?_getD, List.getElem?_set_ne hs,
              ← List.getD_eq_getElem?_getD]
            exact h
        · rw [lambdaPass, if_neg h1, if_neg h2]
          exact ih lam s h

/-- A pass preserves the length of the flag vector. -/
theorem lambdaPass_length (rules : List GRule) :
    ∀ lam, (lambdaPass rules lam).1.length = lam.length := by
  induction rules with
  | nil => intro lam; rfl
  | cons r rs ih =>
      intro lam
      by_cases h1 : lam.getD r.lhs false
      · rw [lambdaPass, if_pos h1]; exact ih lam
      · by_cases h2 : r.rhs.all (fun s => lam.getD s false)
        · rw [lambdaPass, if_neg h1, if_pos h2]
          rw [ih (lam.set r.lhs true), List.length_set]
        · rw [lambdaPass, if_neg h1, if_neg h2]; exact ih lam

/-- Setting a false flag true increases the count of true flags by one. -/
theorem count_true_set (l : List Bool) :
    ∀ i, i < l.length → l.getD i false = false →
      (l.set i true).count true = l.count true + 1 := by
  induction l with
  | nil => intro i hi _; cases hi
  | cons b t ih =>
      intro i hi hf
      cases i with
      | zero =>
          simp only [List.getD_cons_zero] at hf
          subst hf
          simp [List.count_cons]
      | succ j =>
          simp only [List.getD_cons_succ] at hf
          have hj : j < t.length := by simpa using hi
          simp only [List.set_cons_succ, List.count_cons]
          rw [ih j hj hf]
          omega

/-- Pointwise implication of flags bounds the count of true flags. -/
theorem count_true_le_of_pointwise (l1 : List Bool) :
    ∀ l2 : List Bool, l1.length = l2.length →
      (∀ i, l1.getD i false = true → l2.getD i false = true) →
      l1.count true ≤ l2.count true := by
  induction l1 with
  | nil => intro l2 _ _; simp
  | cons b t ih =>
      intro l2 hlen h
      cases l2 with
      | nil => cases hlen
      | cons b2 t2 =>
          have hhead : b = true → b2 = true := by
            intro hb
            have := h 0
            simpa [hb] using this
          have htail := ih t2 (by simpa using hlen) (fun i hi => by
            have := h (i + 1)
            simpa using this (by simpa using hi))
          simp only [List.count_cons]
          rcases Bool.eq_false_or_eq_true b with hb | hb
          · subst hb
            have hb2 := hhead rfl
            subst hb2
            simpa using Nat.add_le_add_right htail 1
          · subst hb
            rcases Bool.eq_false_or_eq_true b2 with hb2 | hb2 <;> subst hb2 <;>
              simp <;> omega

/-- A pass that reports progress strictly increases the number of nullable
symbols (all rule LHS indices lying inside the vector). -/
theorem lambdaPass_count (rules : List GRule) :
    ∀ lam, (∀ r ∈ rules, r.lhs < lam.length) →
      (lambdaPass rules lam).2 = true →
      lam.count true < (lambdaPass rules lam).1.count true := by
  induction rules with
  | nil => intro lam _ h; cases h
  | cons r rs ih =>
      intro lam hwf h
      by_cases h1 : lam.getD r.lhs false
      · rw [lambdaPass, if_pos h1] at h ⊢
        exact ih lam (fun r' hr' => hwf r' (by simp [hr'])) h
      · by_cases h2 : r.rhs.all (fun s => lam.getD s false)
        · rw [lambdaPass, if_neg h1, if_pos h2]
          show lam.count true < (lambdaPass rs (lam.set r.lhs true)).1.count true
          have hset := count_true_set lam r.lhs (hwf r (by simp)) (by simpa using h1)
          have hmono := count_true_le_of_pointwise (lam.set r.lhs true)
            (lambdaPass rs (lam.set r.lhs true)).1
            (by rw [lambdaPass_length rs])
            (fun i hi => lambdaPass_mono rs (lam.set r.lhs true) i hi)
          omega
        · rw [lambdaPass, if_neg h1, if_neg h2] at h ⊢
          exact ih lam (fun r' hr' => hwf r' (by simp [hr'])) h

/-- With enough fuel the lambda loop reaches a pass fixed point: a further
pass changes nothing and reports no progress. -/
theorem lambdaLoop_fix (rules : List GRule) (n : Nat)
    (hwf : ∀ r ∈ rules, r.lhs < n) :
    ∀ fuel lam, lam.length = n → n < fuel + lam.count true →
      lambdaPass rules (lambdaLoop fuel rules lam) =
        (lambdaLoop fuel rules lam, false) := by
  intro fuel
  induction fuel with
  | zero =>
      intro lam hlen hcount
      exfalso
      have := List.count_le_length true lam
      omega
  | succ f ih =>
      intro lam hlen hcount
      by_cases hp : (lambdaPass rules lam).2
      · rw [lambdaLoop, if_pos hp]
        have hwf' : ∀ r ∈ rules, r.lhs < lam.length := by
          intro r hr; rw [hlen]; exact hwf r hr
        have hgrow := lambdaPass_count rules lam hwf' hp
        exact ih (lambdaPass rules lam).1 (by rw [lambdaPass_length]; exact hlen)
          (by omega)
      · rw [lambdaLoop, if_neg hp]
        have heq := lambdaPass_false rules lam (by simpa using hp)
        rw [heq]
        have h2 : (lambdaPass rules lam).2 = false := by simpa using hp
        calc lambdaPass rules lam = ((lambdaPass rules lam).1, (lambdaPass rules lam).2) := rfl
          _ = (lam, false) := by rw [heq, h2]

/-- A pass reporting no progress certifies closedness of the flags. -/
theorem lambdaPass_false_closed (rules : List GRule) :
    ∀ lam, (lambdaPass rules lam).2 = false →
      lambdaClosed rules (fun s => lamAt lam s) := by
  induction rules with
  | nil => intro lam _ r hr; cases hr
  | cons r rs ih =>
      intro lam h r' hr' hall
      by_cases h1 : lam.getD r.lhs false
      · rw [lambdaPass, if_pos h1] at h
        rcases List.mem_cons.mp hr' with he | he
        · subst he; exact h1
        · exact ih lam h r' he hall
      · by_cases h2 : r.rhs.all (fun s => lam.getD s false)
        · rw [lambdaPass, if_neg h1, if_pos h2] at h
          cases h
        · rw [lambdaPass, if_neg h1, if_neg h2] at h
          rcases List.mem_cons.mp hr' with he | he
          · subst he
            exfalso
            exact h2 (List.all_eq_true.mpr (fun s hs => hall s hs))
          · exact ih lam h r' he hall

/-- Everything a pass marks nullable lies in every closed assignment. -/
theorem lambdaPass_least (rules : List GRule) (L : Nat → Prop)
    (hL : lambdaClosed rules L) :
    ∀ lam, (∀ s, lamAt lam s → L s) →
      ∀ s, lamAt (lambdaPass rules lam).1 s → L s := by
  induction rules with
  | nil => intro lam hlam s hs; exact hlam s hs
  | cons r rs ih =>
      have hL' : lambdaClosed rs L := fun r' hr' => hL r' (by simp [hr'])
      intro lam hlam s hs
      by_cases h1 : lam.getD r.lhs false
      · rw [lambdaPass, if_pos h1] at hs
        exact ih hL' lam hlam s hs
      · by_cases h2 : r.rhs.all (fun s => lam.getD s false)
        · rw [lambdaPass, if_neg h1, if_pos h2] at hs
          refine ih hL' (lam.set r.lhs true) ?_ s hs
          intro t ht
          by_cases hts : r.lhs = t
          · subst hts
            refine hL r (by simp) ?_
            intro u hu
            exact hlam u (List.all_eq_true.mp h2 u hu)
          · refine hlam t ?_
            unfold lamAt at ht ⊢
            rwa [List.getD_eq_getElem?_getD, List.getElem?_set_ne hts,
              ← List.getD_eq_getElem?_getD] at ht
        · rw [lambdaPass, if_neg h1, if_neg h2] at hs
          exact ih hL' lam hlam s hs

/-- Leastness is preserved along the whole loop. -/
theorem lambdaLoop_least (rules : List GRule) (L : Nat → Prop)
    (hL : lambdaClosed rules L) :
    ∀ fuel lam, (∀ s, lamAt lam s → L s) →
      ∀ s, lamAt (lambdaLoop fuel rules lam) s → L s := by
  intro fuel
  induction fuel with
  | zero => intro lam hlam s hs; exact hlam s hs
  | succ f ih =>
      intro lam hlam s hs
      by_cases hp : (lambdaPass rules lam).2
      · rw [lambdaLoop, if_pos hp] at hs
        exact ih (lambdaPass rules lam).1 (lambdaPass_least rules L hL lam hlam) s hs
      · rw [lambdaLoop, if_neg hp] at hs
        exact lambdaPass_least rules L hL lam hlam s hs

/-- Reading a FIRST set (`sp->firstset`). -/
def fAt (F : List (Finset Nat)) (s : Nat) : Finset Nat := F.getD s ∅

/-- The inner scan of the FIRST pass for one rule `a → rhs` (lemon.c lines
497-508): a terminal is added to FIRST(lhs) (`SetAdd`) and stops the scan; a
self-reference adds nothing and stops unless the LHS is nullable; any other
symbol unions its FIRST set in (`SetUnion`) and stops unless nullable.  The
returned flag accumulates the change reports of `SetAdd`/`SetUnion`;
`nt` is the terminal count (`s->type==TERMINAL` iff `s < nt` after C7). -/
def firstRuleStep (nt : Nat) (lam : List Bool) (a : Nat) :
    List Nat → List (Finset Nat) → List (Finset Nat) × Bool
  | [], F => (F, false)
  | s :: rest, F =>
      if s < nt then
        if s ∈ fAt F a then (F, false)
        else (F.set a (insert s (fAt F a)), true)
      else if s = a then
        if lam.getD a false then firstRuleStep nt lam a rest F else (F, false)
      else
        if lam.getD s false then
          ((firstRuleStep nt lam a rest (F.set a (fAt F a ∪ fAt F s))).1,
            (decide (¬ fAt F s ⊆ fAt F a)) ||
              (firstRuleStep nt lam a rest (F.set a (fAt F a ∪ fAt F s))).2)
        else
          (F.set a (fAt F a ∪ fAt F s), decide (¬ fAt F s ⊆ fAt F a))

/-- One full pass of the FIRST fixed-point loop over all rules. -/
def firstPass (nt : Nat) (lam : List Bool) :
    List GRule → List (Finset Nat) → List (Finset Nat) × Bool
  | [], F => (F, false)
  | r :: rs, F =>
      ((firstPass nt lam rs (firstRuleStep nt lam r.lhs r.rhs F).1).1,
        (firstRuleStep nt lam r.lhs r.rhs F).2 ||
          (firstPass nt lam rs (firstRuleStep nt lam r.lhs r.rhs F).1).2)

/-- The `do ... while(progress)` driving the FIRST computation; the fuel
chosen by `FindFirstSets` always suffices. -/
def firstLoop : Nat → Nat → List Bool → List GRule → List (Finset Nat) →
    List (Finset Nat)
  | 0, _, _, _, F => F
  | f + 1, nt, lam, rules, F =>
      if (firstPass nt lam rules F).2 then
        firstLoop f nt lam rules (firstPass nt lam rules F).1
      else (firstPass nt lam rules F).1

/-- `FindFirstSets` (lemon.c lines 463-512): clear all nullable flags,
compute the nullable fixed point, then compute the FIRST-set fixed point.
Both fuels strictly exceed the largest possible number of productive
passes. -/
def FindFirstSets (g : Grammar) : List Bool × List (Finset Nat) :=
  (lambdaLoop (g.nsymbol + 1) g.rules (List.replicate g.nsymbol false),
   firstLoop (g.nsymbol * g.nterminal + 1) g.nterminal
     (lambdaLoop (g.nsymbol + 1) g.rules (List.replicate g.nsymbol false))
     g.rules (List.replicate g.nsymbol ∅))

/-- The FIRST-set constraints contributed by the left-to-right scan of one
rule `a → rhs`: a terminal is in `M a` and ends the scan; the LHS itself
contributes nothing and ends the scan unless nullable; another symbol's set
is contained in `M a` and the scan ends unless that symbol is nullable. -/
def firstClosedRule (nt : Nat) (lam : List Bool) (M : Nat → Finset Nat)
    (a : Nat) : List Nat → Prop
  | [] => True
  | s :: rest =>
      if s < nt then s ∈ M a
      else if s = a then
        (if lam.getD a false then firstClosedRule nt lam M a rest else True)
      else
        M s ⊆ M a ∧
          (if lam.getD s false then firstClosedRule nt lam M a rest else True)

/-- A FIRST-set assignment satisfying the scan constraints of every rule. -/
def firstClosed (nt : Nat) (lam : List Bool) (rules : List GRule)
    (M : Nat → Finset Nat) : Prop :=
  ∀ r ∈ rules, firstClosedRule nt lam M r.lhs r.rhs

/-- Writing back the value a position already holds changes nothing. -/
theorem set_fAt_self (F : List (Finset Nat)) : ∀ a, F.set a (fAt F a) = F := by
  induction F with
  | nil => intro a; rfl
  | cons x t ih =>
      intro a
      cases a with
      | zero => rfl
      | succ b =>
          show x :: t.set b (fAt (x :: t) (b + 1)) = x :: t
          have : fAt (x :: t) (b + 1) = fAt t b := rfl
          rw [this, ih b]

/-- Reading another position after a write. -/
theorem fAt_set_ne (F : List (Finset Nat)) (a b : Nat) (v : Finset Nat)
    (h : a ≠ b) : fAt (F.set a v) b = fAt F b := by
  unfold fAt
  rw [List.getD_eq_getElem?_getD, List.getD_eq_getElem?_getD,
    List.getElem?_set_ne h]

/-- Reading a written position inside the vector. -/
theorem fAt_set_self (F : List (Finset Nat)) (a : Nat) (v : Finset Nat)
    (h : a < F.length) : fAt (F.set a v) a = v := by
  unfold fAt
  rw [List.getD_eq_getElem?_getD, List.getElem?_set_self h]
  rfl

/-- A write growing one position grows every position (pointwise). -/
theorem fAt_set_superset (F : List (Finset Nat)) (a : Nat) (v : Finset Nat)
    (hv : fAt F a ⊆ v) : ∀ t, fAt F t ⊆ fAt (F.set a v) t := by
  intro t
  by_cases hat : a = t
  · subst hat
    by_cases hlen : a < F.length
    · rw [fAt_set_self F a v hlen]; exact hv
    · rw [List.set_eq_of_length_le (by omega)]
  · rw [fAt_set_ne F a t v hat]

/-- The scan preserves the length of the FIRST vector. -/
theorem firstRuleStep_length (nt : Nat) (lam : List Bool) (a : Nat) :
    ∀ rhs F, (firstRuleStep nt lam a rhs F).1.length = F.length := by
  intro rhs
  induction rhs with
  | nil => intro F; rfl
  | cons s rest ih =>
      intro F
      by_cases h1 : s < nt
      · by_cases h2 : s ∈ fAt F a
        · rw [firstRuleStep, if_pos h1, if_pos h2]
        · rw [firstRuleStep, if_pos h1, if_neg h2]
          exact List.length_set F a _
      · by_cases h3 : s = a
        · by_cases h4 : lam.getD a false
          · rw [firstRuleStep, if_neg h1, if_pos h3, if_pos h4]
            exact ih F
          · rw [firstRuleStep, if_neg h1, if_pos h3, if_neg h4]
        · by_cases h5 : lam.getD s false
          · rw [firstRuleStep, if_neg h1, if_neg h3, if_pos h5]
            show (firstRuleStep nt lam a rest (F.set a (fAt F a ∪ fAt F s))).1.length = _
            rw [ih (F.set a (fAt F a ∪ fAt F s)), List.length_set]
          · rw [firstRuleStep, if_neg h1, if_neg h3, if_neg h5]
            exact List.length_set F a _

/-- The scan only grows the FIRST sets. -/
theorem firstRuleStep_mono (nt : Nat) (lam : List Bool) (a : Nat) :
    ∀ rhs F t, fAt F t ⊆ fAt (firstRuleStep nt lam a rhs F).1 t := by
  intro rhs
  induction rhs with
  | nil => intro F t; exact Finset.Subset.refl _
  | cons s rest ih =>
      intro F t
      by_cases h1 : s < nt
      · by_cases h2 : s ∈ fAt F a
        · rw [firstRuleStep, if_pos h1, if_pos h2]
        · rw [firstRuleStep, if_pos h1, if_neg h2]
          exact fAt_set_superset F a _ (Finset.subset_insert s _) t
      · by_cases h3 : s = a
        · by_cases h4 : lam.getD a false
          · rw [firstRuleStep, if_neg h1, if_pos h3, if_pos h4]
            exact ih F t
          · rw [firstRuleStep, if_neg h1, if_pos h3, if_neg h4]
        · by_cases h5 : lam.getD s false
          · rw [firstRuleStep, if_neg h1, if_neg h3, if_pos h5]
            refine Finset.Subset.trans
              (fAt_set_superset F a (fAt F a ∪ fAt F s) Finset.subset_union_left t)
              ?_
            exact ih (F.set a (fAt F a ∪ fAt F s)) t
          · rw [firstRuleStep, if_neg h1, if_neg h3, if_neg h5]
            exact fAt_set_superset F a _ Finset.subset_union_left t

/-- A scan that reports no change leaves the FIRST sets unchanged. -/
theorem firstRuleStep_false (nt : Nat) (lam : List Bool) (a : Nat) :
    ∀ rhs F, (firstRuleStep nt lam a rhs F).2 = false →
      (firstRuleStep nt lam a rhs F).1 = F := by
  intro rhs
  induction rhs with
  | nil => intro F _; rfl
  | cons s rest ih =>
      intro F h
      by_cases h1 : s < nt
      · by_cases h2 : s ∈ fAt F a
        · rw [firstRuleStep, if_pos h1, if_pos h2]
        · rw [firstRuleStep, if_pos h1, if_neg h2] at h
          cases h
      · by_cases h3 : s = a
        · by_cases h4 : lam.getD a false
          · rw [firstRuleStep, if_neg h1, if_pos h3, if_pos h4] at h ⊢
            exact ih F h
          · rw [firstRuleStep, if_neg h1, if_pos h3, if_neg h4]
        · by_cases h5 : lam.getD s false
          · rw [firstRuleStep, if_neg h1, if_neg h3, if_pos h5] at h ⊢
            have hsub : fAt F s ⊆ fAt F a := by
              by_contra hns
              simp [hns] at h
            have hFa : F.set a (fAt F a ∪ fAt F s) = F := by
              rw [Finset.union_eq_left.mpr hsub, set_fAt_self]
            rw [hFa] at h ⊢
            simp only [Bool.or_eq_false_iff] at h
            exact ih F h.2
          · rw [firstRuleStep, if_neg h1, if_neg h3, if_neg h5] at h ⊢
            have hsub : fAt F s ⊆ fAt F a := by
              by_contra hns
              simp [hns] at h
            rw [Finset.union_eq_left.mpr hsub, set_fAt_self]

/-- A scan that reports no change certifies that the rule's constraints
already hold of the current sets. -/
theorem firstRuleStep_false_closed (nt : Nat) (lam : List Bool) (a : Nat) :
    ∀ rhs F, (firstRuleStep nt lam a rhs F).2 = false →
      firstClosedRule nt lam (fAt F) a rhs := by
  intro rhs
  induction rhs with
  | nil => intro F _; trivial
  | cons s rest ih =>
      intro F h
      by_cases h1 : s < nt
      · by_cases h2 : s ∈ fAt F a
        · rw [firstClosedRule, if_pos h1]
          exact h2
        · rw [firstRuleStep, if_pos h1, if_neg h2] at h
          cases h
      · by_cases h3 : s = a
        · by_cases h4 : lam.getD a false
          · rw [firstRuleStep, if_neg h1, if_pos h3, if_pos h4] at h
            rw [firstClosedRule, if_neg h1, if_pos h3, if_pos h4]
            exact ih F h
          · rw [firstClosedRule, if_neg h1, if_pos h3, if_neg h4]
            trivial
        · by_cases h5 : lam.getD s false
          · rw [firstRuleStep, if_neg h1, if_neg h3, if_pos h5] at h
            simp only [Bool.or_eq_false_iff] at h
            have hsub : fAt F s ⊆ fAt F a := by
              by_contra hns
              simp [hns] at h
            have hFa : F.set a (fAt F a ∪ fAt F s) = F := by
              rw [Finset.union_eq_left.mpr hsub, set_fAt_self]
            rw [firstClosedRule, if_neg h1, if_neg h3, if_pos h5]
            refine ⟨hsub, ?_⟩
            refine ih F ?_
            rw [← hFa]
            exact h.2
          · rw [firstRuleStep, if_neg h1, if_neg h3, if_neg h5] at h
            have hsub : fAt F s ⊆ fAt F a := by
              by_contra hns
              simp [hns] at h
            rw [firstClosedRule, if_neg h1, if_neg h3, if_neg h5]
            exact ⟨hsub, trivial⟩

/-- Every element the scan adds lies in any assignment satisfying the
rule's constraints. -/
theorem firstRuleStep_least (nt : Nat) (lam : List Bool) (a : Nat)
    (M : Nat → Finset Nat) :
    ∀ rhs F, firstClosedRule nt lam M a rhs → (∀ t, fAt F t ⊆ M t) →
      ∀ t, fAt (firstRuleStep nt lam a rhs F).1 t ⊆ M t := by
  intro rhs
  induction rhs with
  | nil => intro F _ hinv t; exact hinv t
  | cons s rest ih =>
      intro F hM hinv t
      by_cases h1 : s < nt
      · rw [firstClosedRule, if_pos h1] at hM
        by_cases h2 : s ∈ fAt F a
        · rw [firstRuleStep, if_pos h1, if_pos h2]
          exact hinv t
        · rw [firstRuleStep, if_pos h1, if_neg h2]
          by_cases hat : a = t
          · subst hat
            by_cases hlen : a < F.length
            · rw [fAt_set_self F a _ hlen]
              exact Finset.insert_subset hM (hinv a)
            · rw [List.set_eq_of_length_le (by omega)]
              exact hinv a
          · rw [fAt_set_ne F a t _ hat]
            exact hinv t
      · by_cases h3 : s = a
        · by_cases h4 : lam.getD a false
          · rw [firstClosedRule, if_neg h1, if_pos h3, if_pos h4] at hM
            rw [firstRuleStep, if_neg h1, if_pos h3, if_pos h4]
            exact ih F hM hinv t
          · rw [firstRuleStep, if_neg h1, if_pos h3, if_neg h4]
            exact hinv t
        · rw [firstClosedRule, if_neg h1, if_neg h3] at hM
          have hinv2 : ∀ u, fAt (F.set a (fAt F a ∪ fAt F s)) u ⊆ M u := by
            intro u
            by_cases hau : a = u
            · subst hau
              by_cases hlen : a < F.length
              · rw [fAt_set_self F a _ hlen]
                exact Finset.union_subset (hinv a)
                  (Finset.Subset.trans (hinv s) hM.1)
              · rw [List.set_eq_of_length_le (by omega)]
                exact hinv a
            · rw [fAt_set_ne F a u _ hau]
              exact hinv u
          by_cases h5 : lam.getD s false
          · rw [firstRuleStep, if_neg h1, if_neg h3, if_pos h5]
            rw [if_pos h5] at hM
            exact ih (F.set a (fAt F a ∪ fAt F s)) hM.2 hinv2 t
          · rw [firstRuleStep, if_neg h1, if_neg h3, if_neg h5]
            exact hinv2 t

/-- The total number of elements across all FIRST sets (the number of set
bits across all bit vectors). -/
def totalSize (F : List (Finset Nat)) : Nat := (F.map Finset.card).sum

/-- A write that does not shrink its position does not shrink the total. -/
theorem totalSize_set_le (F : List (Finset Nat)) :
    ∀ a v, (fAt F a).card ≤ v.card → totalSize F ≤ totalSize (F.set a v) := by
  induction F with
  | nil => intro a v _; rfl
  | cons x t ih =>
      intro a v h
      cases a with
      | zero =>
          have hx : fAt (x :: t) 0 = x := rfl
          rw [hx] at h
          simp only [List.set_cons_zero, totalSize, List.map_cons, List.sum_cons]
          omega
      | succ b =>
          have hx : fAt (x :: t) (b + 1) = fAt t b := rfl
          rw [hx] at h
          have := ih b v h
          simp only [List.set_cons_succ, totalSize, List.map_cons, List.sum_cons]
          unfold totalSize at this
          omega

/-- A write strictly growing a position inside the vector strictly grows
the total. -/
theorem totalSize_set_lt (F : List (Finset Nat)) :
    ∀ a v, a < F.length → (fAt F a).card < v.card →
      totalSize F < totalSize (F.set a v) := by
  induction F with
  | nil => intro a v ha _; cases ha
  | cons x t ih =>
      intro a v ha h
      cases a with
      | zero =>
          have hx : fAt (x :: t) 0 = x := rfl
          rw [hx] at h
          simp only [List.set_cons_zero, totalSize, List.map_cons, List.sum_cons]
          omega
      | succ b =>
          have hx : fAt (x :: t) (b + 1) = fAt t b := rfl
          rw [hx] at h
          have := ih b v (by simpa using ha) h
          simp only [List.set_cons_succ, totalSize, List.map_cons, List.sum_cons]
          unfold totalSize at this
          omega

/-- The scan never shrinks the total size. -/
theorem firstRuleStep_size_le (nt : Nat) (lam : List Bool) (a : Nat) :
    ∀ rhs F, totalSize F ≤ totalSize (firstRuleStep nt lam a rhs F).1 := by
  intro rhs
  induction rhs with
  | nil => intro F; exact Nat.le_refl _
  | cons s rest ih =>
      intro F
      by_cases h1 : s < nt
      · by_cases h2 : s ∈ fAt F a
        · rw [firstRuleStep, if_pos h1, if_pos h2]
        · rw [firstRuleStep, if_pos h1, if_neg h2]
          exact totalSize_set_le F a _ (Finset.card_le_card (Finset.subset_insert s _))
      · by_cases h3 : s = a
        · by_cases h4 : lam.getD a false
          · rw [firstRuleStep, if_neg h1, if_pos h3, if_pos h4]
            exact ih F
          · rw [firstRuleStep, if_neg h1, if_pos h3, if_neg h4]
        · by_cases h5 : lam.getD s false
          · rw [firstRuleStep, if_neg h1, if_neg h3, if_pos h5]
            show totalSize F ≤
              totalSize (firstRuleStep nt lam a rest (F.set a (fAt F a ∪ fAt F s))).1
            refine Nat.le_trans
              (totalSize_set_le F a (fAt F a ∪ fAt F s)
                (Finset.card_le_card Finset.subset_union_left))
              ?_
            exact ih (F.set a (fAt F a ∪ fAt F s))
          · rw [firstRuleStep, if_neg h1, if_neg h3, if_neg h5]
            exact totalSize_set_le F a _ (Finset.card_le_card Finset.subset_union_left)

/-- A union with something new strictly grows the position. -/
theorem card_union_lt_of_not_subset (A B : Finset Nat) (h : ¬ B ⊆ A) :
    A.card < (A ∪ B).card := by
  refine Finset.card_lt_card ?_
  rw [Finset.ssubset_iff_of_subset Finset.subset_union_left]
  obtain ⟨x, hxB, hxA⟩ := Finset.not_subset.mp h
  exact ⟨x, Finset.mem_union_right A hxB, hxA⟩

/-- A scan that reports a change strictly grows the total size (the scanned
LHS lying inside the vector). -/
theorem firstRuleStep_size_lt (nt : Nat) (lam : List Bool) (a : Nat) :
    ∀ rhs F, a < F.length → (firstRuleStep nt lam a rhs F).2 = true →
      totalSize F < totalSize (firstRuleStep nt lam a rhs F).1 := by
  intro rhs
  induction rhs with
  | nil => intro F _ h; cases h
  | cons s rest ih =>
      intro F ha h
      by_cases h1 : s < nt
      · by_cases h2 : s ∈ fAt F a
        · rw [firstRuleStep, if_pos h1, if_pos h2] at h
          cases h
        · rw [firstRuleStep, if_pos h1, if_neg h2]
          exact totalSize_set_lt F a _ ha
            (by rw [Finset.card_insert_of_not_mem h2]; omega)
      · by_cases h3 : s = a
        · by_cases h4 : lam.getD a false
          · rw [firstRuleStep, if_neg h1, if_pos h3, if_pos h4] at h ⊢
            exact ih F ha h
          · rw [firstRuleStep, if_neg h1, if_pos h3, if_neg h4] at h
            cases h
        · by_cases h5 : lam.getD s false
          · rw [firstRuleStep, if_neg h1, if_neg h3, if_pos h5] at h ⊢
            by_cases hsub : fAt F s ⊆ fAt F a
            · have hFa : F.set a (fAt F a ∪ fAt F s) = F := by
                rw [Finset.union_eq_left.mpr hsub, set_fAt_self]
              rw [hFa] at h ⊢
              simp only [decide_eq_true_eq] at h
              rcases Bool.or_eq_true_iff.mp h with hc | hr
              · exact absurd hsub (by simpa using hc)
              · exact ih F ha hr
            · show totalSize F <
                totalSize (firstRuleStep nt lam a rest (F.set a (fAt F a ∪ fAt F s))).1
              have hlt := totalSize_set_lt F a (fAt F a ∪ fAt F s) ha
                (card_union_lt_of_not_subset _ _ hsub)
              have hle := firstRuleStep_size_le nt lam a rest
                (F.set a (fAt F a ∪ fAt F s))
              omega
          · rw [firstRuleStep, if_neg h1, if_neg h3, if_neg h5] at h ⊢
            have hsub : ¬ fAt F s ⊆ fAt F a := by
              by_contra hc
              simp [hc] at h
            exact totalSize_set_lt F a _ ha (card_union_lt_of_not_subset _ _ hsub)

/-- A full pass that reports no change leaves the FIRST sets unchanged. -/
theorem firstPass_false (nt : Nat) (lam : List Bool) :
    ∀ rules F, (firstPass nt lam rules F).2 = false →
      (firstPass nt lam rules F).1 = F := by
  intro rules
  induction rules with
  | nil => intro F _; rfl
  | cons r rs ih =>
      intro F h
      rw [firstPass] at h ⊢
      simp only [Bool.or_eq_false_iff] at h
      have hstep := firstRuleStep_false nt lam r.lhs r.rhs F h.1
      rw [hstep] at h ⊢
      exact ih F h.2

/-- A full pass preserves the length of the FIRST vector. -/
theorem firstPass_length (nt : Nat) (lam : List Bool) :
    ∀ rules F, (firstPass nt lam rules F).1.length = F.length := by
  intro rules
  induction rules with
  | nil => intro F; rfl
  | cons r rs ih =>
      intro F
      rw [firstPass]
      show (firstPass nt lam rs (firstRuleStep nt lam r.lhs r.rhs F).1).1.length = _
      rw [ih, firstRuleStep_length]

/-- A full pass never shrinks the total size. -/
theorem firstPass_size_le (nt : Nat) (lam : List Bool) :
    ∀ rules F, totalSize F ≤ totalSize (firstPass nt lam rules F).1 := by
  intro rules
  induction rules with
  | nil => intro F; exact Nat.le_refl _
  | cons r rs ih =>
      intro F
      rw [firstPass]
      show totalSize F ≤
        totalSize (firstPass nt lam rs (firstRuleStep nt lam r.lhs r.rhs F).1).1
      exact Nat.le_trans (firstRuleStep_size_le nt lam r.lhs r.rhs F)
        (ih (firstRuleStep nt lam r.lhs r.rhs F).1)

/-- A full pass that reports a change strictly grows the total size. -/
theorem firstPass_size_lt (nt : Nat) (lam : List Bool) :
    ∀ rules F, (∀ r ∈ rules, r.lhs < F.length) →
      (firstPass nt lam rules F).2 = true →
      totalSize F < totalSize (firstPass nt lam rules F).1 := by
  intro rules
  induction rules with
  | nil => intro F _ h; cases h
  | cons r rs ih =>
      intro F hwf h
      rw [firstPass] at h ⊢
      show totalSize F <
        totalSize (firstPass nt lam rs (firstRuleStep nt lam r.lhs r.rhs F).1).1
      rcases Bool.or_eq_true_iff.mp h with hc | hr
      · have h1 := firstRuleStep_size_lt nt lam r.lhs r.rhs F (hwf r (by simp)) hc
        have h2 := firstPass_size_le nt lam rs (firstRuleStep nt lam r.lhs r.rhs F).1
        omega
      · have h1 := firstRuleStep_size_le nt lam r.lhs r.rhs F
        have h2 := ih (firstRuleStep nt lam r.lhs r.rhs F).1
          (by
            intro r' hr'
            rw [firstRuleStep_length]
            exact hwf r' (by simp [hr']))
          hr
        omega

/-- A full pass that reports no change certifies closedness of every rule's
constraints. -/
theorem firstPass_false_closed (nt : Nat) (lam : List Bool) :
    ∀ rules F, (firstPass nt lam rules F).2 = false →
      firstClosed nt lam rules (fAt F) := by
  intro rules
  induction rules with
  | nil => intro F _ r hr; cases hr
  | cons r rs ih =>
      intro F h r' hr'
      rw [firstPass] at h
      simp only [Bool.or_eq_false_iff] at h
      have hstep := firstRuleStep_false nt lam r.lhs r.rhs F h.1
      rcases List.mem_cons.mp hr' with he | he
      · subst he
        exact firstRuleStep_false_closed nt lam r'.lhs r'.rhs F h.1
      · refine ih F ?_ r' he
        rw [← hstep]
        exact h.2

/-- Everything a full pass adds lies in any closed assignment. -/
theorem firstPass_least (nt : Nat) (lam : List Bool) (M : Nat → Finset Nat) :
    ∀ rules F, firstClosed nt lam rules M → (∀ t, fAt F t ⊆ M t) →
      ∀ t, fAt (firstPass nt lam rules F).1 t ⊆ M t := by
  intro rules
  induction rules with
  | nil => intro F _ hinv t; exact hinv t
  | cons r rs ih =>
      intro F hM hinv t
      rw [firstPass]
      show fAt (firstPass nt lam rs (firstRuleStep nt lam r.lhs r.rhs F).1).1 t ⊆ M t
      refine ih (firstRuleStep nt lam r.lhs r.rhs F).1
        (fun r' hr' => hM r' (by simp [hr'])) ?_ t
      exact firstRuleStep_least nt lam r.lhs M r.rhs F (hM r (by simp)) hinv

/-- All FIRST sets remain within the terminal index space. -/
def fBounded (nt : Nat) (F : List (Finset Nat)) : Prop :=
  ∀ t, fAt F t ⊆ Finset.range nt

/-- The scan keeps the FIRST sets within the terminal index space. -/
theorem firstRuleStep_bounded (nt : Nat) (lam : List Bool) (a : Nat) :
    ∀ rhs F, fBounded nt F → fBounded nt (firstRuleStep nt lam a rhs F).1 := by
  intro rhs
  induction rhs with
  | nil => intro F h; exact h
  | cons s rest ih =>
      intro F hb
      by_cases h1 : s < nt
      · by_cases h2 : s ∈ fAt F a
        · rw [firstRuleStep, if_pos h1, if_pos h2]
          exact hb
        · rw [firstRuleStep, if_pos h1, if_neg h2]
          intro t
          by_cases hat : a = t
          · subst hat
            by_cases hlen : a < F.length
            · rw [fAt_set_self F a _ hlen]
              exact Finset.insert_subset (Finset.mem_range.mpr h1) (hb a)
            · rw [List.set_eq_of_length_le (by omega)]
              exact hb a
          · rw [fAt_set_ne F a t _ hat]
            exact hb t
      · by_cases h3 : s = a
        · by_cases h4 : lam.getD a false
          · rw [firstRuleStep, if_neg h1, if_pos h3, if_pos h4]
            exact ih F hb
          · rw [firstRuleStep, if_neg h1, if_pos h3, if_neg h4]
            exact hb
        · have hb2 : fBounded nt (F.set a (fAt F a ∪ fAt F s)) := by
            intro t
            by_cases hat : a = t
            · subst hat
              by_cases hlen : a < F.length
              · rw [fAt_set_self F a _ hlen]
                exact Finset.union_subset (hb a) (hb s)
              · rw [List.set_eq_of_length_le (by omega)]
                exact hb a
            · rw [fAt_set_ne F a t _ hat]
              exact hb t
          by_cases h5 : lam.getD s false
          · rw [firstRuleStep, if_neg h1, if_neg h3, if_pos h5]
            exact ih (F.set a (fAt F a ∪ fAt F s)) hb2
          · rw [firstRuleStep, if_neg h1, if_neg h3, if_neg h5]
            exact hb2

/-- A full pass keeps the FIRST sets within the terminal index space. -/
theorem firstPass_bounded (nt : Nat) (lam : List Bool) :
    ∀ rules F, fBounded nt F → fBounded nt (firstPass nt lam rules F).1 := by
  intro rules
  induction rules with
  | nil => intro F h; exact h
  | cons r rs ih =>
      intro F hb
      rw [firstPass]
      show fBounded nt (firstPass nt lam rs (firstRuleStep nt lam r.lhs r.rhs F).1).1
      exact ih _ (firstRuleStep_bounded nt lam r.lhs r.rhs F hb)

/-- With sets bounded by the terminal space, the total size is bounded by
`length * nterminal`. -/
theorem totalSize_le_bound (nt : Nat) :
    ∀ F, fBounded nt F → totalSize F ≤ F.length * nt := by
  intro F
  induction F with
  | nil => intro _; simp [totalSize]
  | cons x t ih =>
      intro hb
      have hx : x.card ≤ nt := by
        have := Finset.card_le_card (hb 0)
        simpa [fAt] using this
      have ht := ih (fun u => hb (u + 1))
      simp only [totalSize, List.map_cons, List.sum_cons, List.length_cons]
      unfold totalSize at ht
      calc x.card + (t.map Finset.card).sum ≤ nt + t.length * nt := by omega
        _ = (t.length + 1) * nt := by ring

/-- With enough fuel the FIRST loop reaches a pass fixed point: a further
pass changes nothing and reports no progress. -/
theorem firstLoop_fix (nt : Nat) (lam : List Bool) (rules : List GRule)
    (n : Nat) (hwf : ∀ r ∈ rules, r.lhs < n) :
    ∀ fuel F, F.length = n → fBounded nt F → n * nt < fuel + totalSize F →
      firstPass nt lam rules (firstLoop fuel nt lam rules F) =
        (firstLoop fuel nt lam rules F, false) := by
  intro fuel
  induction fuel with
  | zero =>
      intro F hlen hb hcount
      exfalso
      have := totalSize_le_bound nt F hb
      rw [hlen] at this
      omega
  | succ f ih =>
      intro F hlen hb hcount
      by_cases hp : (firstPass nt lam rules F).2
      · rw [firstLoop, if_pos hp]
        have hwf' : ∀ r ∈ rules, r.lhs < F.length := by
          intro r hr; rw [hlen]; exact hwf r hr
        have hgrow := firstPass_size_lt nt lam rules F hwf' hp
        exact ih (firstPass nt lam rules F).1
          (by rw [firstPass_length]; exact hlen)
          (firstPass_bounded nt lam rules F hb)
          (by omega)
      · rw [firstLoop, if_neg hp]
        have heq := firstPass_false nt lam rules F (by simpa using hp)
        rw [heq]
        have h2 : (firstPass nt lam rules F).2 = false := by simpa using hp
        calc firstPass nt lam rules F
            = ((firstPass nt lam rules F).1, (firstPass nt lam rules F).2) := rfl
          _ = (F, false) := by rw [heq, h2]

/-- Leastness is preserved along the whole FIRST loop. -/
theorem firstLoop_least (nt : Nat) (lam : List Bool) (rules : List GRule)
    (M : Nat → Finset Nat) (hM : firstClosed nt lam rules M) :
    ∀ fuel F, (∀ t, fAt F t ⊆ M t) →
      ∀ t, fAt (firstLoop fuel nt lam rules F) t ⊆ M t := by
  intro fuel
  induction fuel with
  | zero => intro F hinv t; exact hinv t
  | succ f ih =>
      intro F hinv t
      by_cases hp : (firstPass nt lam rules F).2
      · rw [firstLoop, if_pos hp]
        exact ih (firstPass nt lam rules F).1
          (firstPass_least nt lam M rules F hM hinv) t
      · rw [firstLoop, if_neg hp]
        exact firstPass_least nt lam M rules F hM hinv t

/-- C4: FIRST-set computation.  For a grammar whose rule LHS indices lie in
the symbol range, `FindFirstSets` terminates with a pass that adds no
element to any set (both the nullable pass and the FIRST pass are fixed
points reporting no progress), the nullable flags are the least fixed point
of "a nonterminal with a rule whose RHS symbols are all nullable is
nullable", and the FIRST sets are the least assignment satisfying, for
every rule `A → X₁ … Xₙ` scanned left to right: a terminal `Xᵢ` is in
FIRST(A) and stops the scan; `Xᵢ = A` contributes nothing and stops the
scan unless `A` is nullable; otherwise FIRST(Xᵢ) ⊆ FIRST(A) and the scan
stops if `Xᵢ` is not nullable. -/
theorem find_first_sets_least (g : Grammar)
    (hwf : ∀ r ∈ g.rules, r.lhs < g.nsymbol) :
    lambdaPass g.rules (FindFirstSets g).1 = ((FindFirstSets g).1, false) ∧
    lambdaClosed g.rules (fun s => lamAt (FindFirstSets g).1 s) ∧
    (∀ L : Nat → Prop, lambdaClosed g.rules L →
      ∀ s, lamAt (FindFirstSets g).1 s → L s) ∧
    firstPass g.nterminal (FindFirstSets g).1 g.rules (FindFirstSets g).2 =
      ((FindFirstSets g).2, false) ∧
    firstClosed g.nterminal (FindFirstSets g).1 g.rules
      (fAt (FindFirstSets g).2) ∧
    (∀ M : Nat → Finset Nat,
      firstClosed g.nterminal (FindFirstSets g).1 g.rules M →
      ∀ t, fAt (FindFirstSets g).2 t ⊆ M t) := by
  have hcount0 : (List.replicate g.nsymbol false).count true = 0 := by
    simp [List.count_replicate]
  have hlam0 : ∀ s, ¬ lamAt (List.replicate g.nsymbol false) s := by
    intro s hs
    unfold lamAt at hs
    by_cases h : s < g.nsymbol <;>
      simp [List.getD_eq_getElem?_getD, List.getElem?_replicate, h] at hs
  have hF0 : ∀ t, fAt (List.replicate g.nsymbol (∅ : Finset Nat)) t = ∅ := by
    intro t
    by_cases h : t < g.nsymbol <;>
      simp [fAt, List.getD_eq_getElem?_getD, List.getElem?_replicate, h]
  have hsize0 : totalSize (List.replicate g.nsymbol (∅ : Finset Nat)) = 0 := by
    simp [totalSize, List.map_replicate]
  have hlamfix : lambdaPass g.rules (FindFirstSets g).1 =
      ((FindFirstSets g).1, false) := by
    show lambdaPass g.rules
        (lambdaLoop (g.nsymbol + 1) g.rules (List.replicate g.nsymbol false)) = _
    exact lambdaLoop_fix g.rules g.nsymbol hwf (g.nsymbol + 1)
      (List.replicate g.nsymbol false) (by simp) (by omega)
  have hffix : firstPass g.nterminal (FindFirstSets g).1 g.rules
      (FindFirstSets g).2 = ((FindFirstSets g).2, false) := by
    show firstPass g.nterminal (FindFirstSets g).1 g.rules
        (firstLoop (g.nsymbol * g.nterminal + 1) g.nterminal (FindFirstSets g).1
          g.rules (List.replicate g.nsymbol ∅)) = _
    exact firstLoop_fix g.nterminal (FindFirstSets g).1 g.rules g.nsymbol hwf
      (g.nsymbol * g.nterminal + 1) (List.replicate g.nsymbol ∅) (by simp)
      (fun t => by rw [hF0 t]; exact Finset.empty_subset _) (by omega)
  refine ⟨hlamfix, ?_, ?_, hffix, ?_, ?_⟩
  · exact lambdaPass_false_closed g.rules (FindFirstSets g).1
      (by rw [hlamfix])
  · intro L hL s hs
    exact lambdaLoop_least g.rules L hL (g.nsymbol + 1)
      (List.replicate g.nsymbol false)
      (fun u hu => absurd hu (hlam0 u)) s hs
  · exact firstPass_false_closed g.nterminal (FindFirstSets g).1 g.rules
      (FindFirstSets g).2 (by rw [hffix])
  · intro M hM t
    exact firstLoop_least g.nterminal (FindFirstSets g).1 g.rules M hM
      (g.nsymbol * g.nterminal + 1) (List.replicate g.nsymbol ∅)
      (fun u => by rw [hF0 u]; exact Finset.empty_subset _) t

/-- The E6-style grammar of the C4 witness: symbol 0 is the end-of-input
terminal, symbols 1 and 2 are the nonterminals `a` and `b`, with rules
`a ::= .` and `b ::= a a .`. -/
def c4g : Grammar := ⟨3, 1, [⟨1, []⟩, ⟨2, [1, 1]⟩]⟩

/-- Witness for C4: the well-formedness hypothesis holds of `c4g` and both
fixed-point conjuncts hold there (a further pass changes nothing). -/
theorem find_first_sets_least_witness :
    (∀ r ∈ c4g.rules, r.lhs < c4g.nsymbol) ∧
    lambdaPass c4g.rules (FindFirstSets c4g).1 = ((FindFirstSets c4g).1, false) ∧
    firstPass c4g.nterminal (FindFirstSets c4g).1 c4g.rules (FindFirstSets c4g).2 =
      ((FindFirstSets c4g).2, false) :=
  ⟨by decide, (find_first_sets_least c4g (by decide)).1,
    (find_first_sets_least c4g (by decide)).2.2.2.1⟩

/-! ## C5: closure soundness (`Configlist_closure` inside `getstate`) -/

/-- `struct config` as the closure computation uses it: the rule (by index
into the rule list), the dot position, the follow set, and the forward
propagation links (recorded by the (rule, dot) key of the linked
configuration). -/
structure Cfg where
  rp : Nat
  dot : Nat
  fws : Finset Nat
  fplp : List (Nat × Nat)
deriving DecidableEq

/-- The placeholder configuration read through `getD` (never reached on
in-range indices). -/
def dfltCfg : Cfg := ⟨0, 0, ∅, []⟩

/-- Rule lookup by index. -/
def ruleOf (g : Grammar) (j : Nat) : GRule := g.rules.getD j ⟨0, []⟩

/-- The `sp->rule` / `nextlhs` chain of the rules with LHS `b`: rules are
prepended at parse time, so the chain runs in reverse declaration order. -/
def rulesFor (g : Grammar) (b : Nat) : List Nat :=
  ((List.range g.rules.length).filter (fun j => (ruleOf g j).lhs = b)).reverse

/-- The key `(rule, dot)` by which `Configtable_find` deduplicates. -/
def keysOf (acc : List Cfg) : List (Nat × Nat) :=
  acc.map (fun c => (c.rp, c.dot))

/-- `Configlist_add(rp,dot)`: return the list unchanged when a
configuration with that key exists, else append a fresh configuration with
an empty follow set. -/
def Configlist_add (acc : List Cfg) (j d : Nat) : List Cfg :=
  if (j, d) ∈ keysOf acc then acc else acc ++ [⟨j, d, ∅, []⟩]

/-- Merge follow-set bits into the configuration with the given key
(the `SetAdd`/`SetUnion` calls on `newcfp->fws`). -/
def updateFws (key : Nat × Nat) (add : Finset Nat) : List Cfg → List Cfg
  | [] => []
  | c :: rest =>
      if c.rp = key.1 ∧ c.dot = key.2 then { c with fws := c.fws ∪ add } :: rest
      else c :: updateFws key add rest

/-- `Plink_add(&cfp->fplp, newcfp)`: prepend a forward link on the
configuration at position `i` of the working list. -/
def updateFplp (i : Nat) (key : Nat × Nat) (acc : List Cfg) : List Cfg :=
  acc.set i { acc.getD i dfltCfg with
    fplp := key :: (acc.getD i dfltCfg).fplp }

/-- The follow-set seeding scan over `β` (lemon.c lines 1006-1015): walk the
RHS after the expanded position; a terminal contributes itself and stops; a
nonterminal contributes its FIRST set and stops unless nullable.  The flag
reports whether the scan ran to the end of the rule (`i==rp->nrhs`), in
which case a propagation link is recorded. -/
def fwsScan (nt : Nat) (lam : List Bool) (F : List (Finset Nat)) :
    List Nat → Finset Nat × Bool
  | [] => (∅, true)
  | x :: rest =>
      if x < nt then ({x}, false)
      else
        if lam.getD x false then
          ((fAt F x) ∪ (fwsScan nt lam F rest).1, (fwsScan nt lam F rest).2)
        else (fAt F x, false)

/-- Expansion of one rule `j` with LHS `B` for the configuration at
position `i` (rule `jr`, dot `d`): `Configlist_add(newrp, 0)`, seed the new
configuration's follow set from the rest of the outer rule, and record a
forward propagation link when all of `β` is nullable. -/
def closureExpandRule (g : Grammar) (lam : List Bool) (F : List (Finset Nat))
    (jr d i : Nat) (acc : List Cfg) (j : Nat) : List Cfg :=
  if (fwsScan g.nterminal lam F ((ruleOf g jr).rhs.drop (d + 1))).2 then
    updateFplp i (j, 0)
      (updateFws (j, 0) (fwsScan g.nterminal lam F ((ruleOf g jr).rhs.drop (d + 1))).1
        (Configlist_add acc j 0))
  else
    updateFws (j, 0) (fwsScan g.nterminal lam F ((ruleOf g jr).rhs.drop (d + 1))).1
      (Configlist_add acc j 0)

/-- The worklist of `Configlist_closure` (lemon.c lines 984-1021): walk the
configuration list (which grows at its end as configurations are added),
and for each configuration with the dot before a nonterminal, add a
dot-at-the-start configuration for every rule of that nonterminal.  `none`
models fuel exhaustion; the loop of the C program terminates because only
finitely many distinct configurations exist. -/
def closureAux (g : Grammar) (lam : List Bool) (F : List (Finset Nat)) :
    Nat → List Cfg → Nat → Option (List Cfg)
  | 0, _, _ => none
  | fuel + 1, acc, i =>
      if acc.length ≤ i then some acc
      else
        if (ruleOf g (acc.getD i dfltCfg).rp).rhs.length ≤ (acc.getD i dfltCfg).dot then
          closureAux g lam F fuel acc (i + 1)
        else
          if (ruleOf g (acc.getD i dfltCfg).rp).rhs.getD (acc.getD i dfltCfg).dot 0
              < g.nterminal then
            closureAux g lam F fuel acc (i + 1)
          else
            closureAux g lam F fuel
              ((rulesFor g
                  ((ruleOf g (acc.getD i dfltCfg).rp).rhs.getD (acc.getD i dfltCfg).dot 0)).foldl
                (closureExpandRule g lam F (acc.getD i dfltCfg).rp
                  (acc.getD i dfltCfg).dot i)
                acc)
              (i + 1)

/-- `Configlist_closure` run on a basis list. -/
def Configlist_closure (g : Grammar) (lam : List Bool) (F : List (Finset Nat))
    (basis : List Cfg) (fuel : Nat) : Option (List Cfg) :=
  closureAux g lam F fuel basis 0

/-- `Configcmp` (lemon.c): order configurations by rule index, then dot. -/
def Configcmp (a b : Cfg) : Int :=
  if ((a.rp : Int) - (b.rp : Int)) = 0 then (a.dot : Int) - (b.dot : Int)
  else (a.rp : Int) - (b.rp : Int)

/-- The sorting relation of `Configlist_sort`. -/
def configLe (a b : Cfg) : Prop := Configcmp a b ≤ 0

instance : DecidableRel configLe := fun a b => by
  unfold configLe; infer_instance

/-- `Configlist_sort` (`msort` with `Configcmp`, modelled by insertion
sort). -/
def Configlist_sort (l : List Cfg) : List Cfg :=
  List.insertionSort configLe l

/-- The configuration list `getstate` stores for a new state: the sorted
closure of its basis (lemon.c lines 602-610). -/
def getstate_configs (g : Grammar) (lam : List Bool) (F : List (Finset Nat))
    (basis : List Cfg) (fuel : Nat) : Option (List Cfg) :=
  (Configlist_closure g lam F basis fuel).map Configlist_sort

/-- The key of the configuration at position `k` of the working list. -/
def keyAt (acc : List Cfg) (k : Nat) : Nat × Nat :=
  (keysOf acc).getD k (0, 0)

/-- Within range, `keyAt` reads the configuration's own key. -/
theorem keyAt_eq (acc : List Cfg) (k : Nat) (h : k < acc.length) :
    keyAt acc k = ((acc.getD k dfltCfg).rp, (acc.getD k dfltCfg).dot) := by
  unfold keyAt keysOf
  rw [List.getD_eq_getElem?_getD, List.getElem?_map, List.getD_eq_getElem?_getD,
    List.getElem?_eq_getElem h]
  rfl

/-- `updateFws` leaves the list of keys unchanged. -/
theorem keysOf_updateFws (key : Nat × Nat) (add : Finset Nat) :
    ∀ acc, keysOf (updateFws key add acc) = keysOf acc := by
  intro acc
  induction acc with
  | nil => rfl
  | cons c rest ih =>
      by_cases h : c.rp = key.1 ∧ c.dot = key.2
      · rw [updateFws, if_pos h]
        rfl
      · rw [updateFws, if_neg h]
        show (c.rp, c.dot) :: keysOf (updateFws key add rest) = _
        rw [ih]
        rfl

/-- `updateFplp` leaves the list of keys unchanged. -/
theorem keysOf_updateFplp (key : Nat × Nat) :
    ∀ acc i, keysOf (updateFplp i key acc) = keysOf acc := by
  intro acc
  induction acc with
  | nil => intro i; rfl
  | cons c rest ih =>
      intro i
      cases i with
      | zero => rfl
      | succ k =>
          show keysOf (c :: rest.set k _) = keysOf (c :: rest)
          have hget : (c :: rest).getD (k + 1) dfltCfg = rest.getD k dfltCfg := rfl
          show (c.rp, c.dot) :: keysOf (rest.set k
            { (c :: rest).getD (k + 1) dfltCfg with
              fplp := key :: ((c :: rest).getD (k + 1) dfltCfg).fplp }) = _
          rw [hget]
          have := ih k
          unfold updateFplp at this
          rw [this]
          rfl

/-- `Configlist_add` only ever appends one key. -/
theorem keysOf_add (acc : List Cfg) (j d : Nat) :
    keysOf (Configlist_add acc j d) = keysOf acc ∨
      keysOf (Configlist_add acc j d) = keysOf acc ++ [(j, d)] := by
  by_cases h : (j, d) ∈ keysOf acc
  · exact Or.inl (by rw [Configlist_add, if_pos h])
  · refine Or.inr ?_
    rw [Configlist_add, if_neg h]
    unfold keysOf
    rw [List.map_append]
    rfl

/-- After `Configlist_add` the added key is present. -/
theorem mem_keys_add (acc : List Cfg) (j d : Nat) :
    (j, d) ∈ keysOf (Configlist_add acc j d) := by
  by_cases h : (j, d) ∈ keysOf acc
  · rw [Configlist_add, if_pos h]; exact h
  · rw [Configlist_add, if_neg h]
    unfold keysOf
    rw [List.map_append]
    simp

/-- Old keys survive `Configlist_add`. -/
theorem keys_subset_add (acc : List Cfg) (j d : Nat) :
    keysOf acc ⊆ keysOf (Configlist_add acc j d) := by
  rcases keysOf_add acc j d with h | h
  · rw [h]
    exact List.Subset.refl _
  · rw [h]; exact List.subset_append_left _ _

/-- The expansion of one rule preserves existing keys. -/
theorem keys_subset_expandRule (g : Grammar) (lam : List Bool)
    (F : List (Finset Nat)) (jr d i : Nat) (acc : List Cfg) (j : Nat) :
    keysOf acc ⊆ keysOf (closureExpandRule g lam F jr d i acc j) := by
  unfold closureExpandRule
  by_cases h : (fwsScan g.nterminal lam F ((ruleOf g jr).rhs.drop (d + 1))).2
  · rw [if_pos h, keysOf_updateFplp, keysOf_updateFws]
    exact keys_subset_add acc j 0
  · rw [if_neg h, keysOf_updateFws]
    exact keys_subset_add acc j 0

/-- The expansion of one rule records its key. -/
theorem mem_keys_expandRule (g : Grammar) (lam : List Bool)
    (F : List (Finset Nat)) (jr d i : Nat) (acc : List Cfg) (j : Nat) :
    (j, 0) ∈ keysOf (closureExpandRule g lam F jr d i acc j) := by
  unfold closureExpandRule
  by_cases h : (fwsScan g.nterminal lam F ((ruleOf g jr).rhs.drop (d + 1))).2
  · rw [if_pos h, keysOf_updateFplp, keysOf_updateFws]
    exact mem_keys_add acc j 0
  · rw [if_neg h, keysOf_updateFws]
    exact mem_keys_add acc j 0

/-- The fold over all rules of the expanded nonterminal preserves keys. -/
theorem keys_subset_foldl (g : Grammar) (lam : List Bool)
    (F : List (Finset Nat)) (jr d i : Nat) :
    ∀ (js : List Nat) (acc : List Cfg), keysOf acc ⊆
      keysOf (js.foldl (closureExpandRule g lam F jr d i) acc) := by
  intro js
  induction js with
  | nil => intro acc; exact fun x hx => hx
  | cons j rest ih =>
      intro acc
      refine List.Subset.trans (keys_subset_expandRule g lam F jr d i acc j) ?_
      exact ih (closureExpandRule g lam F jr d i acc j)

/-- After the fold every expanded rule's key is present. -/
theorem mem_keys_foldl (g : Grammar) (lam : List Bool)
    (F : List (Finset Nat)) (jr d i : Nat) :
    ∀ (js : List Nat) (acc : List Cfg) (j : Nat), j ∈ js →
      (j, 0) ∈ keysOf (js.foldl (closureExpandRule g lam F jr d i) acc) := by
  intro js
  induction js with
  | nil => intro acc j hj; cases hj
  | cons j0 rest ih =>
      intro acc j hj
      rcases List.mem_cons.mp hj with he | he
      · subst he
        exact keys_subset_foldl g lam F jr d i rest _
          (mem_keys_expandRule g lam F jr d i acc j)
      · exact ih _ j he

/-- Updates never move the key stored at an in-range position. -/
theorem keyAt_updateFws (key : Nat × Nat) (add : Finset Nat) (acc : List Cfg)
    (k : Nat) : keyAt (updateFws key add acc) k = keyAt acc k := by
  unfold keyAt
  rw [keysOf_updateFws]

/-- `updateFplp` never moves the key stored at a position. -/
theorem keyAt_updateFplp (key : Nat × Nat) (acc : List Cfg) (i k : Nat) :
    keyAt (updateFplp i key acc) k = keyAt acc k := by
  unfold keyAt
  rw [keysOf_updateFplp]

/-- `Configlist_add` never moves the key at an in-range position. -/
theorem keyAt_add (acc : List Cfg) (j d k : Nat) (hk : k < acc.length) :
    keyAt (Configlist_add acc j d) k = keyAt acc k := by
  rcases keysOf_add acc j d with h | h
  · unfold keyAt; rw [h]
  · unfold keyAt
    rw [h, List.getD_eq_getElem?_getD, List.getElem?_append_left
      (by simpa [keysOf] using hk), ← List.getD_eq_getElem?_getD]

/-- The expansion of one rule never moves an in-range key. -/
theorem keyAt_expandRule (g : Grammar) (lam : List Bool)
    (F : List (Finset Nat)) (jr d i : Nat) (acc : List Cfg) (j k : Nat)
    (hk : k < acc.length) :
    keyAt (closureExpandRule g lam F jr d i acc j) k = keyAt acc k := by
  unfold closureExpandRule
  by_cases h : (fwsScan g.nterminal lam F ((ruleOf g jr).rhs.drop (d + 1))).2
  · rw [if_pos h, keyAt_updateFplp, keyAt_updateFws, keyAt_add acc j 0 k hk]
  · rw [if_neg h, keyAt_updateFws, keyAt_add acc j 0 k hk]

/-- The expansion of one rule never shrinks the working list. -/
theorem length_le_expandRule (g : Grammar) (lam : List Bool)
    (F : List (Finset Nat)) (jr d i : Nat) (acc : List Cfg) (j : Nat) :
    acc.length ≤ (closureExpandRule g lam F jr d i acc j).length := by
  have hlen : ∀ b : List Cfg, b.length ≤ (Configlist_add b j 0).length := by
    intro b
    unfold Configlist_add
    by_cases h : (j, 0) ∈ keysOf b
    · rw [if_pos h]
    · rw [if_neg h]; simp
  have hfws : ∀ key add (b : List Cfg), (updateFws key add b).length = b.length := by
    intro key add b
    have := keysOf_updateFws key add b
    have h1 : (keysOf (updateFws key add b)).length = (keysOf b).length := by rw [this]
    simpa [keysOf] using h1
  unfold closureExpandRule
  by_cases h : (fwsScan g.nterminal lam F ((ruleOf g jr).rhs.drop (d + 1))).2
  · rw [if_pos h]
    unfold updateFplp
    rw [List.length_set, hfws]
    exact hlen acc
  · rw [if_neg h, hfws]
    exact hlen acc

/-- The fold never moves an in-range key and never shrinks the list. -/
theorem keyAt_foldl (g : Grammar) (lam : List Bool) (F : List (Finset Nat))
    (jr d i : Nat) :
    ∀ (js : List Nat) (acc : List Cfg) (k : Nat), k < acc.length →
      keyAt (js.foldl (closureExpandRule g lam F jr d i) acc) k = keyAt acc k ∧
      acc.length ≤ (js.foldl (closureExpandRule g lam F jr d i) acc).length := by
  intro js
  induction js with
  | nil => intro acc k hk; exact ⟨rfl, Nat.le_refl _⟩
  | cons j rest ih =>
      intro acc k hk
      have h1 := length_le_expandRule g lam F jr d i acc j
      have h2 := ih (closureExpandRule g lam F jr d i acc j) k (by omega)
      rw [List.foldl_cons]
      refine ⟨?_, by omega⟩
      rw [h2.1, keyAt_expandRule g lam F jr d i acc j k hk]

/-- A configuration key has been expanded in a key set `K`: if its dot
stands before a nonterminal, every rule of that nonterminal appears in `K`
with the dot at the start. -/
def expandedKey (g : Grammar) (K : List (Nat × Nat)) (jr d : Nat) : Prop :=
  d < (ruleOf g jr).rhs.length →
  ¬ ((ruleOf g jr).rhs.getD d 0 < g.nterminal) →
  ∀ j, j < g.rules.length → (ruleOf g j).lhs = (ruleOf g jr).rhs.getD d 0 →
    (j, 0) ∈ K

/-- `expandedKey` is monotone in the key set. -/
theorem expandedKey_mono (g : Grammar) (K K2 : List (Nat × Nat)) (jr d : Nat)
    (hsub : K ⊆ K2) (h : expandedKey g K jr d) : expandedKey g K2 jr d :=
  fun h1 h2 j hj hlhs => hsub (h h1 h2 j hj hlhs)

/-- Membership in the `nextlhs` chain model. -/
theorem mem_rulesFor (g : Grammar) (b j : Nat) :
    j ∈ rulesFor g b ↔ j < g.rules.length ∧ (ruleOf g j).lhs = b := by
  unfold rulesFor
  rw [List.mem_reverse, List.mem_filter, List.mem_range]
  simp

/-- Once the worklist of `Configlist_closure` completes, every
configuration of the result is expanded. -/
theorem closureAux_closed (g : Grammar) (lam : List Bool)
    (F : List (Finset Nat)) :
    ∀ fuel (acc : List Cfg) (i : Nat) (res : List Cfg),
      closureAux g lam F fuel acc i = some res →
      (∀ k, k < i → expandedKey g (keysOf acc) (keyAt acc k).1 (keyAt acc k).2) →
      ∀ k, k < res.length →
        expandedKey g (keysOf res) (keyAt res k).1 (keyAt res k).2 := by
  intro fuel
  induction fuel with
  | zero => intro acc i res h _; cases h
  | succ f ih =>
      intro acc i res h hinv
      by_cases hlen : acc.length ≤ i
      · rw [closureAux, if_pos hlen] at h
        injection h with h
        subst h
        intro k hk
        exact hinv k (by omega)
      · rw [closureAux, if_neg hlen] at h
        by_cases hdot : (ruleOf g (acc.getD i dfltCfg).rp).rhs.length ≤
            (acc.getD i dfltCfg).dot
        · rw [if_pos hdot] at h
          refine ih acc (i + 1) res h ?_
          intro k hk
          by_cases hki : k = i
          · subst hki
            rw [keyAt_eq acc k (by omega)]
            show expandedKey g (keysOf acc) (acc.getD k dfltCfg).rp
              (acc.getD k dfltCfg).dot
            intro hd _ _ _ _
            exfalso
            omega
          · exact hinv k (by omega)
        · rw [if_neg hdot] at h
          by_cases hterm : (ruleOf g (acc.getD i dfltCfg).rp).rhs.getD
              (acc.getD i dfltCfg).dot 0 < g.nterminal
          · rw [if_pos hterm] at h
            refine ih acc (i + 1) res h ?_
            intro k hk
            by_cases hki : k = i
            · subst hki
              rw [keyAt_eq acc k (by omega)]
              intro _ hnt
              exact absurd hterm hnt
            · exact hinv k (by omega)
          · rw [if_neg hterm] at h
            refine ih _ (i + 1) res h ?_
            intro k hk
            have hstable := keyAt_foldl g lam F (acc.getD i dfltCfg).rp
              (acc.getD i dfltCfg).dot i
              (rulesFor g ((ruleOf g (acc.getD i dfltCfg).rp).rhs.getD
                (acc.getD i dfltCfg).dot 0)) acc k (by omega)
            rw [hstable.1]
            by_cases hki : k = i
            · subst hki
              rw [keyAt_eq acc k (by omega)]
              show expandedKey g _ (acc.getD k dfltCfg).rp
                (acc.getD k dfltCfg).dot
              intro _ _ j hj hlhs
              exact mem_keys_foldl g lam F (acc.getD k dfltCfg).rp
                (acc.getD k dfltCfg).dot k _ acc j
                ((mem_rulesFor g _ j).mpr ⟨hj, hlhs⟩)
            · refine expandedKey_mono g (keysOf acc) _ _ _
                (keys_subset_foldl g lam F _ _ i _ acc) (hinv k (by omega))

/-- C5: closure soundness.  For every state the LR(0) constructor builds,
its configuration list is the sorted closure of its basis
(`getstate_configs`); whenever a configuration `A → α · B β` with the dot
before a nonterminal `B` is in that list and the grammar contains a rule
`B → γ` (rule index `j`), the configuration `B → · γ` (rule `j`, dot 0) is
also in the list.  The hypothesis `= some res` states that the worklist
completed within its fuel, which the C loop always does. -/
theorem closure_soundness (g : Grammar) (lam : List Bool)
    (F : List (Finset Nat)) (basis : List Cfg) (fuel : Nat) (res : List Cfg)
    (hres : getstate_configs g lam F basis fuel = some res)
    (c : Cfg) (hc : c ∈ res)
    (hd : c.dot < (ruleOf g c.rp).rhs.length)
    (hB : ¬ ((ruleOf g c.rp).rhs.getD c.dot 0 < g.nterminal))
    (j : Nat) (hj : j < g.rules.length)
    (hlhs : (ruleOf g j).lhs = (ruleOf g c.rp).rhs.getD c.dot 0) :
    ∃ c' ∈ res, c'.rp = j ∧ c'.dot = 0 := by
  unfold getstate_configs at hres
  rcases hclos : Configlist_closure g lam F basis fuel with _ | clos
  · rw [hclos] at hres; cases hres
  · rw [hclos] at hres
    injection hres with hres
    subst hres
    have hperm : List.Perm (Configlist_sort clos) clos :=
      List.perm_insertionSort configLe clos
    have hcc : c ∈ clos := hperm.mem_iff.mp hc
    obtain ⟨k, hk, hkc⟩ := List.getElem_of_mem hcc
    have hclosed := closureAux_closed g lam F fuel basis 0 clos hclos
      (fun k hk => absurd hk (by omega)) k hk
    have hkey : keyAt clos k = (c.rp, c.dot) := by
      rw [keyAt_eq clos k hk]
      rw [List.getD_eq_getElem?_getD, List.getElem?_eq_getElem hk, hkc]
      rfl
    rw [hkey] at hclosed
    have hmem := hclosed hd hB j hj hlhs
    unfold keysOf at hmem
    obtain ⟨c', hc', hck⟩ := List.mem_map.mp hmem
    refine ⟨c', hperm.mem_iff.mpr hc', ?_, ?_⟩
    · exact congrArg Prod.fst hck
    · exact congrArg Prod.snd hck

/-- Witness grammar for C5: terminal 0, nonterminals 1 and 2, rules
`1 → 2` (index 0) and `2 → ε` (index 1). -/
def c5g : Grammar := ⟨3, 1, [⟨1, [2]⟩, ⟨2, []⟩]⟩

def c5lam : List Bool := [false, true, true]

def c5F : List (Finset Nat) := [∅, ∅, ∅]

def c5basis : List Cfg := [⟨0, 0, {0}, []⟩]

def c5res : List Cfg := [⟨0, 0, {0}, [(1, 0)]⟩, ⟨1, 0, ∅, []⟩]

theorem closure_soundness_witness :
    ∃ c' ∈ c5res, c'.rp = 1 ∧ c'.dot = 0 :=
  closure_soundness c5g c5lam c5F c5basis 4 c5res (by decide)
    ⟨0, 0, {0}, [(1, 0)]⟩ (by decide) (by decide) (by decide)
    1 (by decide) (by decide)

end Lemon

